import Mathlib

/-!
Verification development for the segtok repository (sentence segmenter and
word tokenizer).  The Python modules `segtok/segmenter.py` and
`segtok/tokenizer.py` are shallowly embedded: strings become `List Char`,
the compiled regular expressions become terms of a small regex AST `RE`
evaluated by a fuel-bounded backtracking matcher with Python semantics
(leftmost match, ordered alternation, greedy/lazy quantifiers, lookaround,
anchors and word boundaries), and each Python function becomes an
executable Lean function of the same shape.

Unicode general categories used by the patterns (`\p{Lu}`, `\p{Ll}`,
`\p{Nd}`, ...) are modelled by their ASCII fragments, with one exception:
the modifier-letter category `\p{Lm}` is carried in full (as code-point
ranges), because it overlaps the source's `APOSTROPHES` set (U+02B9 and
U+02BC are modifier letters), which makes some apostrophe-like marks
alphanumeric.  The auxiliary character sets that the source spells out
explicitly (sentence terminals, hyphens, apostrophes, whitespace) are
transcribed in full.
-/

namespace Segtok

/-- Strings are modelled as lists of characters. -/
abbrev Str := List Char

/-- Conversion from a Lean string literal to the model's string type. -/
def toL (s : String) : Str := s.data

/-- Sentence terminal characters, from `SENTENCE_TERMINALS` in segmenter.py:
`.` `!` `?` and U+203C U+203D U+2047 U+2048 U+2049 U+3002 U+FE52 U+FE57
U+FF01 U+FF0E U+FF1F U+FF61. -/
def isSentTerminal (c : Char) : Bool :=
  c = '.' || c = '!' || c = '?' ||
  c.toNat = 0x203C || c.toNat = 0x203D || c.toNat = 0x2047 ||
  c.toNat = 0x2048 || c.toNat = 0x2049 || c.toNat = 0x3002 ||
  c.toNat = 0xFE52 || c.toNat = 0xFE57 || c.toNat = 0xFF01 ||
  c.toNat = 0xFF0E || c.toNat = 0xFF1F || c.toNat = 0xFF61

/-- Word-breaking hyphens, from `HYPHENS` in segmenter.py:
the characters U+00AD U+058A U+05BE U+0F0C U+1400 U+1806, the range
U+2010 to U+2012, U+2E17, U+30A0 and the ASCII hyphen-minus. -/
def isHyphenChar (c : Char) : Bool :=
  c = Char.ofNat 0x00AD || c = Char.ofNat 0x058A || c = Char.ofNat 0x05BE ||
  c = Char.ofNat 0x0F0C || c = Char.ofNat 0x1400 || c = Char.ofNat 0x1806 ||
  c = Char.ofNat 0x2010 || c = Char.ofNat 0x2011 || c = Char.ofNat 0x2012 ||
  c = Char.ofNat 0x2E17 || c = Char.ofNat 0x30A0 || c = '-'

/-- Apostrophe-like marks including the ASCII single quote, from
`APOSTROPHES` in tokenizer.py: `'` and U+00B4 U+02B9 U+02BC U+2019 U+2032. -/
def isApostrophe (c : Char) : Bool :=
  c = '\'' || c = Char.ofNat 0x00B4 || c = Char.ofNat 0x02B9 ||
  c = Char.ofNat 0x02BC || c = Char.ofNat 0x2019 || c = Char.ofNat 0x2032

/-- Apostrophe-like marks excluding the ASCII single quote, from
`APOSTROPHE` in tokenizer.py: U+00B4 U+02B9 U+02BC U+2019 U+2032. -/
def isApoU (c : Char) : Bool :=
  c = Char.ofNat 0x00B4 || c = Char.ofNat 0x02B9 || c = Char.ofNat 0x02BC ||
  c = Char.ofNat 0x2019 || c = Char.ofNat 0x2032

/-- The two apostrophe-like marks that are also modifier letters (Unicode
category Lm): U+02B9 and U+02BC.  These are exactly the characters on
which the `APOSTROPHES` set and the `ALNUM` class of tokenizer.py
overlap. -/
def isLmApo (c : Char) : Bool :=
  c = Char.ofNat 0x02B9 || c = Char.ofNat 0x02BC

/-- Python `\s` with the UNICODE flag (also the character set stripped by
`str.strip()`): ASCII whitespace, the separator controls U+1C to U+1F,
U+85, U+A0, U+1680, U+2000 to U+200A, U+2028, U+2029, U+202F, U+205F and
U+3000. -/
def isSpacePy (c : Char) : Bool :=
  c = ' ' || c = '\t' || c = '\n' || c = '\r' ||
  c.toNat = 0x0B || c.toNat = 0x0C ||
  c.toNat = 0x1C || c.toNat = 0x1D || c.toNat = 0x1E || c.toNat = 0x1F ||
  c.toNat = 0x85 || c.toNat = 0xA0 || c.toNat = 0x1680 ||
  (0x2000 ≤ c.toNat && c.toNat ≤ 0x200A) ||
  c.toNat = 0x2028 || c.toNat = 0x2029 || c.toNat = 0x202F ||
  c.toNat = 0x205F || c.toNat = 0x3000

/-- The Unicode category Lm (modifier letters), as the full list of its
code-point ranges (Unicode 14.0).  The category is carried in full, not
as an ASCII fragment, because it intersects the `APOSTROPHES` set of
tokenizer.py: U+02B9 (modifier letter prime) and U+02BC (modifier letter
apostrophe) are modifier letters, so they count as alphanumeric in the
`LETTER`/`ALNUM` classes.  All Lm code points lie at or above U+02B0, so
the leading bound makes the test cheap on ASCII input. -/
def isLm (c : Char) : Bool :=
  decide (0x2B0 ≤ c.toNat) &&
  (c.toNat ≤ 0x2C1 ||
   (0x2C6 ≤ c.toNat && c.toNat ≤ 0x2D1) ||
   (0x2E0 ≤ c.toNat && c.toNat ≤ 0x2E4) ||
   c.toNat = 0x2EC || c.toNat = 0x2EE || c.toNat = 0x374 ||
   c.toNat = 0x37A || c.toNat = 0x559 || c.toNat = 0x640 ||
   c.toNat = 0x6E5 || c.toNat = 0x6E6 ||
   c.toNat = 0x7F4 || c.toNat = 0x7F5 || c.toNat = 0x7FA ||
   c.toNat = 0x81A || c.toNat = 0x824 || c.toNat = 0x828 ||
   c.toNat = 0x8C9 || c.toNat = 0x971 || c.toNat = 0xE46 ||
   c.toNat = 0xEC6 || c.toNat = 0x10FC || c.toNat = 0x17D7 ||
   c.toNat = 0x1843 || c.toNat = 0x1AA7 ||
   (0x1C78 ≤ c.toNat && c.toNat ≤ 0x1C7D) ||
   (0x1D2C ≤ c.toNat && c.toNat ≤ 0x1D6A) ||
   c.toNat = 0x1D78 ||
   (0x1D9B ≤ c.toNat && c.toNat ≤ 0x1DBF) ||
   c.toNat = 0x2071 || c.toNat = 0x207F ||
   (0x2090 ≤ c.toNat && c.toNat ≤ 0x209C) ||
   c.toNat = 0x2C7C || c.toNat = 0x2C7D || c.toNat = 0x2D6F ||
   c.toNat = 0x2E2F || c.toNat = 0x3005 ||
   (0x3031 ≤ c.toNat && c.toNat ≤ 0x3035) ||
   c.toNat = 0x303B || c.toNat = 0x309D || c.toNat = 0x309E ||
   (0x30FC ≤ c.toNat && c.toNat ≤ 0x30FE) ||
   c.toNat = 0xA015 ||
   (0xA4F8 ≤ c.toNat && c.toNat ≤ 0xA4FD) ||
   c.toNat = 0xA60C || c.toNat = 0xA67F ||
   c.toNat = 0xA69C || c.toNat = 0xA69D ||
   (0xA717 ≤ c.toNat && c.toNat ≤ 0xA71F) ||
   c.toNat = 0xA770 || c.toNat = 0xA788 ||
   (0xA7F2 ≤ c.toNat && c.toNat ≤ 0xA7F4) ||
   c.toNat = 0xA7F8 || c.toNat = 0xA7F9 || c.toNat = 0xA9CF ||
   c.toNat = 0xA9E6 || c.toNat = 0xAA70 || c.toNat = 0xAADD ||
   c.toNat = 0xAAF3 || c.toNat = 0xAAF4 ||
   (0xAB5C ≤ c.toNat && c.toNat ≤ 0xAB5F) ||
   c.toNat = 0xAB69 || c.toNat = 0xFF70 ||
   c.toNat = 0xFF9E || c.toNat = 0xFF9F ||
   (0x10780 ≤ c.toNat && c.toNat ≤ 0x10785) ||
   (0x10787 ≤ c.toNat && c.toNat ≤ 0x107B0) ||
   (0x107B2 ≤ c.toNat && c.toNat ≤ 0x107BA) ||
   (0x16B40 ≤ c.toNat && c.toNat ≤ 0x16B43) ||
   (0x16F93 ≤ c.toNat && c.toNat ≤ 0x16F9F) ||
   c.toNat = 0x16FE0 || c.toNat = 0x16FE1 || c.toNat = 0x16FE3 ||
   (0x1AFF0 ≤ c.toNat && c.toNat ≤ 0x1AFF3) ||
   (0x1AFF5 ≤ c.toNat && c.toNat ≤ 0x1AFFB) ||
   c.toNat = 0x1AFFD || c.toNat = 0x1AFFE ||
   (0x1E137 ≤ c.toNat && c.toNat ≤ 0x1E13D) ||
   c.toNat = 0x1E94B)

/-- The Unicode letter categories of the `LETTER` class of tokenizer.py,
`[\p{Ll}\p{Lm}\p{Lt}\p{Lu}]`: the ASCII fragment of Ll, Lt, Lu together
with the full modifier-letter category Lm. -/
def isLetterU (c : Char) : Bool := c.isAlpha || isLm c

/-- ASCII fragment of `\p{Lu}` together with `\p{Lt}` (upper-case and
title-case letters). -/
def isUpperU (c : Char) : Bool := c.isUpper

/-- ASCII fragment of `\p{Ll}` (lower-case letters). -/
def isLowerU (c : Char) : Bool := c.isLower

/-- ASCII fragment of the Unicode number categories Nd and Nl
(the `NUMBER` class of tokenizer.py). -/
def isNumberU (c : Char) : Bool := c.isDigit

/-- Alphanumeric characters, the `ALNUM` class of tokenizer.py. -/
def isAlnumU (c : Char) : Bool := isLetterU c || isNumberU c

/-- Python `\w` (word characters) for the `\b` boundary assertion. -/
def isWordChar (c : Char) : Bool := isAlnumU c || c = '_'

/-- Substring of `s` from index `a` (inclusive) to `b` (exclusive). -/
def slice (s : Str) (a b : Nat) : Str := (s.drop a).take (b - a)

/-- Python `str.strip()`: remove leading and trailing whitespace. -/
def stripStr (s : Str) : Str :=
  ((s.dropWhile isSpacePy).reverse.dropWhile isSpacePy).reverse

/-- Python `str.split(sep)` for a single character separator: the pieces
between occurrences of `sep` (empty pieces included). -/
def splitOnChar (sep : Char) : Str → List Str
  | [] => [[]]
  | c :: rest =>
    if c = sep then [] :: splitOnChar sep rest
    else match splitOnChar sep rest with
      | [] => [[c]]
      | p :: ps => (c :: p) :: ps

/-! ## Regex AST and matcher

A small regex AST covering exactly the constructs appearing in segtok's
patterns.  `cls` carries the character predicate of a character class;
alternation is ordered; `star` and `lazyStar` are the greedy and lazy
Kleene closures; `look` and `lookB` are lookahead and lookbehind (positive
when the flag is `true`); `bol` and `eol` are `^` and `$` (no MULTILINE
flag is used in segtok, so `^` is start of string and `$` is end of string
or before one final newline); `wordB` is `\b`. -/

inductive RE : Type where
  | eps : RE
  | cls : (Char → Bool) → RE
  | seq : RE → RE → RE
  | alt : RE → RE → RE
  | star : RE → RE
  | lazyStar : RE → RE
  | look : Bool → RE → RE
  | lookB : Bool → RE → RE
  | bol : RE
  | eol : RE
  | wordB : RE

/-- Literal single character. -/
def RE.chr (c : Char) : RE := RE.cls (fun d => d = c)

/-- Sequence of a list of regexes. -/
def rcat (l : List RE) : RE := l.foldr RE.seq RE.eps

/-- Ordered alternation of a list of regexes (first alternative preferred). -/
def ralt : List RE → RE
  | [] => RE.cls (fun _ => false)
  | [r] => r
  | r :: rest => RE.alt r (ralt rest)

/-- Literal string. -/
def reStr (s : String) : RE := rcat (s.data.map RE.chr)

/-- Greedy optional. -/
def ropt (r : RE) : RE := RE.alt r RE.eps

/-- Greedy one-or-more repetition. -/
def rplus (r : RE) : RE := RE.seq r (RE.star r)

/-- Greedy at-least-n repetition. -/
def repAtLeast : Nat → RE → RE
  | 0, r => RE.star r
  | n + 1, r => RE.seq r (repAtLeast n r)

/-- Greedy one-to-three repetition. -/
def rep13 (r : RE) : RE := RE.seq r (ropt (RE.seq r (ropt r)))

/-- Does position `pos` satisfy `$` (end of string, or just before one
final newline, as in Python without MULTILINE)? -/
def atEol (s : Str) (pos : Nat) : Bool :=
  pos = s.length || (decide (pos + 1 = s.length) && s.get? pos == some '\n')

/-- Is there a word boundary at position `pos`? -/
def atWordB (s : Str) (pos : Nat) : Bool :=
  let before : Bool := match s.get? (pos - 1) with
    | some c => decide (pos ≠ 0) && isWordChar c
    | none => false
  let after : Bool := match s.get? pos with
    | some c => isWordChar c
    | none => false
  before != after

/-- One step of the backtracking matcher.  `self` is used to re-enter a
starred expression after an iteration and is instantiated with the matcher
at one fuel unit less; all other recursion is structural on the regex.
The continuation `k` receives the end position of the match of `re`; the
overall result is the first success in Python's backtracking order
(ordered alternation, greedy `star` preferring another iteration, lazy
`lazyStar` preferring to stop).  Star iterations must consume at least one
character, matching Python's refusal to repeat an empty match. -/
def matchCore (self : RE → Str → Nat → (Nat → Option Nat) → Option Nat) :
    RE → Str → Nat → (Nat → Option Nat) → Option Nat
  | RE.eps, _, pos, k => k pos
  | RE.cls p, s, pos, k =>
    match s.get? pos with
    | some c => if p c then k (pos + 1) else none
    | none => none
  | RE.seq a b, s, pos, k =>
    matchCore self a s pos (fun e => matchCore self b s e k)
  | RE.alt a b, s, pos, k =>
    (matchCore self a s pos k).orElse (fun _ => matchCore self b s pos k)
  | RE.star r, s, pos, k =>
    (matchCore self r s pos
      (fun e => if pos < e then self (RE.star r) s e k else none)).orElse
      (fun _ => k pos)
  | RE.lazyStar r, s, pos, k =>
    (k pos).orElse (fun _ =>
      matchCore self r s pos
        (fun e => if pos < e then self (RE.lazyStar r) s e k else none))
  | RE.look positive r, s, pos, k =>
    if (matchCore self r s pos some).isSome = positive then k pos else none
  | RE.lookB positive r, s, pos, k =>
    if ((List.range (pos + 1)).any (fun st =>
        (matchCore self r s st
          (fun e => if e = pos then some e else none)).isSome)) = positive
    then k pos else none
  | RE.bol, _, pos, k => if pos = 0 then k pos else none
  | RE.eol, s, pos, k => if atEol s pos then k pos else none
  | RE.wordB, s, pos, k => if atWordB s pos then k pos else none

/-- Fuel-bounded matcher.  One unit of fuel is spent per star iteration;
since every iteration consumes at least one character, fuel exceeding the
string length suffices for any match. -/
def matchF : Nat → RE → Str → Nat → (Nat → Option Nat) → Option Nat
  | 0, _, _, _, _ => none
  | fuel + 1, re, s, pos, k => matchCore (matchF fuel) re s pos k

/-- End position of the match of `re` at position `pos` of `s` (Python's
backtracking choice), or `none` if `re` does not match there. -/
def matchEnd (re : RE) (s : Str) (pos : Nat) : Option Nat :=
  matchF (s.length + 8) re s pos some

/-- Python `pattern.match(s)` as a Boolean: does `re` match at position 0? -/
def reMatch (re : RE) (s : Str) : Bool := (matchEnd re s 0).isSome

/-- Python `pattern.search(s)` as a Boolean: does `re` match at any
position? -/
def reSearch (re : RE) (s : Str) : Bool :=
  (List.range (s.length + 1)).any (fun pos => (matchEnd re s pos).isSome)

/-- Auxiliary recursion for `re.split` when the whole pattern is one
capture group: scan left to right; at each position either the pattern
matches (flush the accumulated piece, emit the separator, continue after
it) or the character is added to the current piece.  An (impossible for
segtok's patterns) empty match is skipped like an ordinary character. -/
def splitSepsGo (re : RE) (s : Str) : Nat → Nat → Str → List Str
  | 0, pos, acc => [acc.reverse ++ s.drop pos]
  | fuel + 1, pos, acc =>
    match s.get? pos with
    | none => [acc.reverse]
    | some c =>
      match matchEnd re s pos with
      | some e =>
        if pos < e then
          acc.reverse :: slice s pos e :: splitSepsGo re s fuel e []
        else splitSepsGo re s fuel (pos + 1) (c :: acc)
      | none => splitSepsGo re s fuel (pos + 1) (c :: acc)

/-- Python `pattern.split(s)` for a pattern that is a single capture
group: alternating list `piece, separator, piece, ..., piece`. -/
def splitSeps (re : RE) (s : Str) : List Str :=
  splitSepsGo re s (s.length + 1) 0 []

/-- Auxiliary recursion for `re.split` without capture groups. -/
def splitDropGo (re : RE) (s : Str) : Nat → Nat → Str → List Str
  | 0, pos, acc => [acc.reverse ++ s.drop pos]
  | fuel + 1, pos, acc =>
    match s.get? pos with
    | none => [acc.reverse]
    | some c =>
      match matchEnd re s pos with
      | some e =>
        if pos < e then acc.reverse :: splitDropGo re s fuel e []
        else splitDropGo re s fuel (pos + 1) (c :: acc)
      | none => splitDropGo re s fuel (pos + 1) (c :: acc)

/-- Python `pattern.split(s)` for a pattern without capture groups: the
pieces between matches (separators dropped). -/
def splitDrop (re : RE) (s : Str) : List Str :=
  splitDropGo re s (s.length + 1) 0 []

/-! ## Patterns of segmenter.py -/

/-- The character that the source file literally contains in `J채n` and
`M채r` (a mojibake of `ä`), U+CC44. -/
def mojibakeAe : Char := Char.ofNat 0xCC44

/-- Alternatives of the `ABBREVIATIONS` word list after the
`capitalize()` extension: the 56 entries of the source list plus the 19
capitalized variants of its lower-case entries, in Python's sorted order
(the alternation order does not affect the matched language since every
alternative is followed by the same `$`). -/
def abbrevWords : List RE :=
  [reStr "Abr", reStr "Approx", reStr "Apr", reStr "Aug",
   reStr "Capt", reStr "Cf", reStr "Col",
   reStr "Dec", reStr "Dez", reStr "Dic", reStr "Dr",
   rcat [RE.chr 'E', ropt (RE.chr '.'), RE.chr 'g'],
   reStr "E.U", reStr "Ene",
   rcat [RE.chr 'F', ropt (RE.chr '.'), RE.chr 'e'],
   reStr "Feb", rcat [reStr "Fig", ropt (RE.chr 's')],
   reStr "Gen",
   rcat [RE.chr 'I', ropt (RE.chr '.'), RE.chr 'e'],
   rcat [RE.chr 'I', ropt (RE.chr '.'), RE.chr 'v'],
   reStr "Jan", reStr "Jul", reStr "Jun",
   rcat [RE.chr 'J', RE.chr mojibakeAe, RE.chr 'n'],
   reStr "Mag", reStr "Mar", reStr "May", reStr "Med",
   reStr "Mr", reStr "Mrs", reStr "Mt",
   rcat [RE.chr 'M', RE.chr mojibakeAe, RE.chr 'r'],
   reStr "Nat", reStr "No", reStr "Nov", reStr "Nr",
   reStr "Oct", reStr "Okt",
   reStr "P.e", reStr "Phil", reStr "Prof", reStr "Rer", reStr "Sci",
   reStr "Sep", reStr "Sept", reStr "Sgt",
   reStr "Sr", reStr "Sra", reStr "Srta", reStr "St",
   reStr "U.K", reStr "U.S", reStr "Univ", reStr "Vol", reStr "Vs",
   reStr "Z.b",
   reStr "approx", reStr "cf",
   rcat [RE.chr 'e', ropt (RE.chr '.'), RE.chr 'g'],
   rcat [RE.chr 'f', ropt (RE.chr '.'), RE.chr 'e'],
   rcat [reStr "fig", ropt (RE.chr 's')],
   rcat [RE.chr 'i', ropt (RE.chr '.'), RE.chr 'e'],
   rcat [RE.chr 'i', ropt (RE.chr '.'), RE.chr 'v'],
   reStr "med", reStr "nat", reStr "nr", reStr "p.e",
   reStr "phil", reStr "prof", reStr "rer", reStr "sci",
   reStr "univ", reStr "vol", reStr "vs", reStr "z.B"]

/-- Human-name cues of alternative 4.a of the `ABBREVIATIONS` pattern. -/
def nameCueRE : RE :=
  ralt
    [RE.seq (RE.cls (fun c => c = 'B' || c = 'b')) (RE.chr 'y'),
     RE.seq (RE.cls (fun c => c = 'C' || c = 'c'))
       (RE.alt (reStr "aptain") (reStr "ommander")),
     rcat [RE.cls (fun c => c = 'D' || c = 'd'), RE.chr 'o',
           RE.cls (fun c => c = 'c' || c = 'k'), reStr "tor"],
     RE.seq (RE.cls (fun c => c = 'G' || c = 'g')) (reStr "eneral"),
     rcat [RE.cls (fun c => c = 'M' || c = 'm'), ropt (reStr "ag"),
           reStr "is", RE.alt (reStr "ter") (RE.chr 's')],
     RE.seq (RE.cls (fun c => c = 'P' || c = 'p')) (reStr "rofessor"),
     rcat [RE.cls (fun c => c = 'S' || c = 's'), RE.chr 'e',
           RE.chr (Char.ofNat 0xF1), reStr "or",
           ropt (reStr "it"), ropt (RE.chr 'a')]]

/-- Author-list cues of alternative 4.b of the `ABBREVIATIONS` pattern:
`(?:(?<!\b\p{Lu}\p{Lm}?),(?:\s and)? | (?<!\b[\p{Lu},]\p{Lm}?)\s and)\s`
without the final `\s` (appended by the caller). -/
def authorCueRE : RE :=
  RE.alt
    (rcat [RE.lookB false (rcat [RE.wordB, RE.cls isUpperU, ropt (RE.cls isLm)]),
           RE.chr ',',
           ropt (RE.seq (RE.cls isSpacePy) (reStr "and"))])
    (rcat [RE.lookB false
             (rcat [RE.wordB, RE.cls (fun c => isUpperU c || c = ','),
                    ropt (RE.cls isLm)]),
           RE.cls isSpacePy, reStr "and"])

/-- Alternative 4 of the `ABBREVIATIONS` pattern: a terminal letter
sequence `A.-A`, `A.A` or `A` prefixed with a name cue, an author-list cue
or an opening bracket. -/
def abbrevAlt4RE : RE :=
  RE.seq
    (ralt
      [rcat [RE.wordB, nameCueRE, RE.cls isSpacePy],
       RE.seq authorCueRE (RE.cls isSpacePy),
       RE.cls (fun c => c = '[' || c = '(')])
    (rcat [ropt (rcat [RE.cls isUpperU, ropt (RE.cls isLm), RE.chr '.',
                       ropt (RE.cls isHyphenChar)]),
           RE.cls isUpperU, ropt (RE.cls isLm)])

/-- The full `ABBREVIATIONS` pattern:
`(?: \b(?:WORDS) | ^\S | ^\d+ | ALT4 ) $`. -/
def abbreviationsRE : RE :=
  RE.seq
    (ralt
      [RE.seq RE.wordB (ralt abbrevWords),
       RE.seq RE.bol (RE.cls (fun c => !(isSpacePy c))),
       RE.seq RE.bol (rplus (RE.cls Char.isDigit)),
       abbrevAlt4RE])
    RE.eol

/-- The `ENDS_IN_DATE_DIGITS` pattern: `\b[0123]?[0-9]$`. -/
def dateDigitsRE : RE :=
  rcat [RE.wordB,
        ropt (RE.cls (fun c => c = '0' || c = '1' || c = '2' || c = '3')),
        RE.cls Char.isDigit, RE.eol]

/-- The `MONTH` pattern:
`(J[채a]n|Ene|Feb|M[채a]r|A[pb]r|May|Jun|Jul|Aug|Sep|O[ck]t|Nov|D[ei][cz]|0?[1-9]|1[012])`. -/
def monthRE : RE :=
  ralt
    [rcat [RE.chr 'J', RE.cls (fun c => c = mojibakeAe || c = 'a'), RE.chr 'n'],
     reStr "Ene", reStr "Feb",
     rcat [RE.chr 'M', RE.cls (fun c => c = mojibakeAe || c = 'a'), RE.chr 'r'],
     rcat [RE.chr 'A', RE.cls (fun c => c = 'p' || c = 'b'), RE.chr 'r'],
     reStr "May", reStr "Jun", reStr "Jul", reStr "Aug", reStr "Sep",
     rcat [RE.chr 'O', RE.cls (fun c => c = 'c' || c = 'k'), RE.chr 't'],
     reStr "Nov",
     rcat [RE.chr 'D', RE.cls (fun c => c = 'e' || c = 'i'),
           RE.cls (fun c => c = 'c' || c = 'z')],
     RE.seq (ropt (RE.chr '0')) (RE.cls (fun c => '1' ≤ c && c ≤ '9')),
     RE.seq (RE.chr '1') (RE.cls (fun c => c = '0' || c = '1' || c = '2'))]

/-- The `CONTINUATIONS` pattern (anchored at string start, closed by
`\b`): lower-case words that usually do not start a sentence. -/
def continuationsRE : RE :=
  rcat
    [RE.bol,
     ralt
       [RE.seq (RE.chr 'a') (RE.alt (reStr "nd") (reStr "re")),
        RE.seq (RE.chr 'b') (RE.alt (reStr "etween") (RE.chr 'y')),
        reStr "from", reStr "has",
        RE.seq (RE.chr 'i') (RE.alt (reStr "nto") (RE.chr 's')),
        RE.seq (RE.chr 'o') (RE.cls (fun c => c = 'f' || c = 'r')),
        RE.seq (RE.chr 't') (ralt [reStr "han", reStr "hat", reStr "hrough"]),
        reStr "via",
        RE.seq (RE.chr 'w') (ralt [reStr "as", reStr "ere", reStr "hether",
                                   reStr "ith"])],
     RE.wordB]

/-- The `BEFORE_LOWER` pattern (DOTALL):
`.*?(?:[T]"[\)\]]* | [T][\)\]]+ | \bspp\. | \b\p{L}\p{Ll}?\.)\s+$`
where `T` is the sentence terminal class. -/
def beforeLowerRE : RE :=
  rcat
    [RE.lazyStar (RE.cls (fun _ => true)),
     ralt
       [rcat [RE.cls isSentTerminal, RE.chr '"',
              RE.star (RE.cls (fun c => c = ')' || c = ']'))],
        rcat [RE.cls isSentTerminal,
              rplus (RE.cls (fun c => c = ')' || c = ']'))],
        rcat [RE.wordB, reStr "spp", RE.chr '.'],
        rcat [RE.wordB, RE.cls isLetterU, ropt (RE.cls isLowerU), RE.chr '.']],
     rplus (RE.cls isSpacePy), RE.eol]

/-- The `LOWER_WORD` pattern: `^\p{Ll}+[HYPHENS]?\p{Ll}*\b`. -/
def lowerWordRE : RE :=
  rcat [RE.bol, rplus (RE.cls isLowerU), ropt (RE.cls isHyphenChar),
        RE.star (RE.cls isLowerU), RE.wordB]

/-- The `MIDDLE_INITIAL_END` pattern: `\b\p{Lu}\p{Ll}+\W+\p{Lu}$`. -/
def midInitialRE : RE :=
  rcat [RE.wordB, RE.cls isUpperU, rplus (RE.cls isLowerU),
        rplus (RE.cls (fun c => !(isWordChar c))), RE.cls isUpperU, RE.eol]

/-- The `UPPER_WORD_START` pattern: `^\p{Lu}\p{Ll}+\b`. -/
def upperWordRE : RE :=
  rcat [RE.bol, RE.cls isUpperU, rplus (RE.cls isLowerU), RE.wordB]

/-- The `LONE_WORD` pattern: `^\p{Ll}+[\p{Ll}\p{Nd}HYPHENS]*$`. -/
def loneWordRE : RE :=
  rcat [RE.bol, rplus (RE.cls isLowerU),
        RE.star (RE.cls (fun c => isLowerU c || Char.isDigit c || isHyphenChar c)),
        RE.eol]

/-- The `UPPER_CASE_END` pattern: `\b[\p{Lu}\p{Lt}]\p{L}*\.\s+$`. -/
def upperCaseEndRE : RE :=
  rcat [RE.wordB, RE.cls isUpperU, RE.star (RE.cls isLetterU), RE.chr '.',
        rplus (RE.cls isSpacePy), RE.eol]

/-- The `UPPER_CASE_START` pattern:
`^(?:(?:\(\d{4}\)\s)?[\p{Lu}\p{Lt}]\p{L}*|\d+)[\.,:]\s+`. -/
def upperCaseStartRE : RE :=
  rcat
    [RE.bol,
     RE.alt
       (rcat [ropt (rcat [RE.chr '(', RE.cls Char.isDigit, RE.cls Char.isDigit,
                          RE.cls Char.isDigit, RE.cls Char.isDigit, RE.chr ')',
                          RE.cls isSpacePy]),
              RE.cls isUpperU, RE.star (RE.cls isLetterU)])
       (rplus (RE.cls Char.isDigit)),
     RE.cls (fun c => c = '.' || c = ',' || c = ':'),
     rplus (RE.cls isSpacePy)]

/-- The `SEGMENTER_REGEX` for a given minimal newline run length `n`
(1 for `DO_NOT_CROSS_LINES`, 2 for `MAY_CROSS_ONE_LINE`): a sentence
terminal, an optional right quote, optional closing brackets and required
spaces, or a run of at least `n` newlines. -/
def segRE (n : Nat) : RE :=
  RE.alt
    (rcat [RE.cls isSentTerminal,
           ropt (RE.cls (fun c =>
             c = '\'' || c.toNat = 0x2019 || c = '"' || c.toNat = 0x201D)),
           RE.star (RE.cls (fun c => c = ']' || c = ')')),
           rplus (RE.cls isSpacePy)])
    (repAtLeast n (RE.chr '\n'))

/-! ## Bracket nesting (`_is_open`, `_is_not_opened`) -/

/-- Scan a list for the first occurrence of `c`, with `j` the index of the
list head in the enclosing string. -/
def findGo (c : Char) : Str → Nat → Option Nat
  | [], _ => none
  | d :: rest, j => if d = c then some j else findGo c rest (j + 1)

/-- Python `s.find(c, i)`: index of the first occurrence of `c` at or
after `i`, or `none` (Python's `-1`). -/
def findFrom (s : Str) (c : Char) (i : Nat) : Option Nat :=
  findGo c (s.drop i) i

/-- Python `s.rfind(c, 0, stop)`: index of the last occurrence of `c`
before `stop`, or `none` (Python's `-1`). -/
def rfindBefore (s : Str) (c : Char) (stop : Nat) : Option Nat :=
  (findGo c (s.take stop).reverse 0).map
    (fun k => (s.take stop).length - 1 - k)

/-- Failures of the bracket-nesting scans: the `RuntimeError` branch of
the source (opener and closer at the identical offset) and exhaustion of
the fuel bounding the loop. -/
inductive BracketErr : Type where
  | sameOffset : BracketErr
  | outOfFuel : BracketErr
deriving DecidableEq

/-- Loop of `_is_open`: starting from the offset of the first opener,
repeatedly move to the next opener or closer and adjust the nesting
count; the `sameOffset` error mirrors the source's `RuntimeError`. -/
def isOpenGo (s : Str) (b0 b1 : Char) : Nat → Nat → Int → Except BracketErr Bool
  | 0, _, _ => .error .outOfFuel
  | fuel + 1, offset, nesting =>
    match findFrom s b0 (offset + 1), findFrom s b1 (offset + 1) with
    | none, none => .ok (nesting > 0)
    | none, some closer => isOpenGo s b0 b1 fuel closer (nesting - 1)
    | some opener, none => isOpenGo s b0 b1 fuel opener (nesting + 1)
    | some opener, some closer =>
      if opener < closer then isOpenGo s b0 b1 fuel opener (nesting + 1)
      else if closer < opener then isOpenGo s b0 b1 fuel closer (nesting - 1)
      else .error .sameOffset

/-- Python `_is_open(span_str, brackets)`: does the span end with an
unclosed opening bracket? -/
def is_open (s : Str) (b0 b1 : Char) : Except BracketErr Bool :=
  match findFrom s b0 0 with
  | none => .ok false
  | some offset => isOpenGo s b0 b1 (s.length + 1) offset 1

/-- Loop of `_is_not_opened`, scanning right to left from the offset of
the last closer. -/
def isNotOpenedGo (s : Str) (b0 b1 : Char) :
    Nat → Nat → Int → Except BracketErr Bool
  | 0, _, _ => .error .outOfFuel
  | fuel + 1, offset, nesting =>
    match rfindBefore s b0 offset, rfindBefore s b1 offset with
    | none, none => .ok (nesting > 0)
    | none, some closer => isNotOpenedGo s b0 b1 fuel closer (nesting + 1)
    | some opener, none => isNotOpenedGo s b0 b1 fuel opener (nesting - 1)
    | some opener, some closer =>
      if closer < opener then isNotOpenedGo s b0 b1 fuel opener (nesting - 1)
      else if opener < closer then isNotOpenedGo s b0 b1 fuel closer (nesting + 1)
      else .error .sameOffset

/-- Python `_is_not_opened(span_str, brackets)`: does the span start with
a closing bracket that is never opened? -/
def is_not_opened (s : Str) (b0 b1 : Char) : Except BracketErr Bool :=
  match rfindBefore s b1 s.length with
  | none => .ok false
  | some offset => isNotOpenedGo s b0 b1 (s.length + 1) offset 1

/-- Boolean view of `is_open`; the error branches are unreachable for
distinct bracket characters (theorem `c6_bracket_error_unreachable`). -/
def is_openB (s : Str) (b0 b1 : Char) : Bool :=
  match is_open s b0 b1 with
  | .ok v => v
  | .error _ => false

/-- Boolean view of `is_not_opened`. -/
def is_not_openedB (s : Str) (b0 b1 : Char) : Bool :=
  match is_not_opened s b0 b1 with
  | .ok v => v
  | .error _ => false

/-! ## The sentence pipeline (`_abbreviation_joiner`, `_sentences`,
`split_single`, `split_multi`) -/

/-- Python `prev_s[-1:].isspace()`. -/
def lastIsSpace (s : Str) : Bool :=
  match s.getLast? with
  | some c => isSpacePy c
  | none => false

/-- Decision of `_abbreviation_joiner` at one candidate terminal: `true`
to suppress the split (join), `false` to yield the sentence.  The three
`pass` branches of the source, in order: the previous span ends in
whitespace; the marker starts with a dot after a known abbreviation; the
marker starts with a dot and the next span is a lone lower-case word, a
month after date digits, or an upper-case word after a middle initial. -/
def joinAtMarker (prev marker : Str) (next? : Option Str) : Bool :=
  lastIsSpace prev ||
  (marker.head? == some '.' && reSearch abbreviationsRE prev) ||
  (marker.head? == some '.' &&
    (match next? with
     | some nx =>
       decide (nx ≠ []) &&
         (reMatch loneWordRE nx ||
          (reSearch dateDigitsRE prev && reMatch monthRE nx) ||
          (reSearch midInitialRE prev && reMatch upperWordRE nx))
     | none => false))

/-- Recursion of `_abbreviation_joiner` over the alternating
`content, marker, content, ...` spans: `seg` is the accumulated sentence
(`spans[segment:pos]`), `prev` the content span immediately before the
upcoming marker.  When a marker is last (no following content span) the
yielded sentence is `seg ++ m` whether or not the decision joins, exactly
as in the source. -/
def abbrevJoinGo : Str → Str → List Str → List Str
  | seg, _prev, [] => [seg]
  | seg, _prev, [m] => [seg ++ m]
  | seg, prev, m :: nx :: rest =>
    if joinAtMarker prev m (some nx) then abbrevJoinGo (seg ++ m ++ nx) nx rest
    else (seg ++ m) :: abbrevJoinGo nx nx rest

/-- Python `_abbreviation_joiner(spans)`: join spans that match the
`ABBREVIATIONS` pattern (and the further `pass` conditions). -/
def abbreviation_joiner : List Str → List Str
  | [] => []
  | c :: rest => abbrevJoinGo c c rest

/-- Python `shorterThanATypicalSentence(c, l)` from `_sentences`. -/
def shorterThan (ssl cLen lLen : Nat) : Bool :=
  decide (cLen < ssl) || decide (lLen < ssl)

/-- Python `last.endswith(' et al. ')`. -/
def endsEtAl (s : Str) : Bool := (toL " et al. ").isSuffixOf s

/-- Join decision of `_sentences` for the pair (`last`, `current`): the
disjunction of the four join branches of the source (lower-case
continuation, open round bracket, open square bracket, continuation
word); every branch extends `last` by `current` in the same way. -/
def sentJoin (jol : Bool) (ssl : Nat) (last cur : Str) : Bool :=
  ((jol || reMatch beforeLowerRE last) && reMatch lowerWordRE cur) ||
  (shorterThan ssl cur.length last.length && is_openB last '(' ')' &&
    (is_not_openedB cur '(' ')' || endsEtAl last ||
      (reSearch upperCaseEndRE last && reMatch upperCaseStartRE cur))) ||
  (shorterThan ssl cur.length last.length && is_openB last '[' ']' &&
    (is_not_openedB cur '[' ']' || endsEtAl last ||
      (reSearch upperCaseEndRE last && reMatch upperCaseStartRE cur))) ||
  reMatch continuationsRE cur

/-- Loop of `_sentences` over the joined spans. -/
def sentencesGo (jol : Bool) (ssl : Nat) : Str → List Str → List Str
  | last, [] => [stripStr last]
  | last, cur :: rest =>
    if sentJoin jol ssl last cur then sentencesGo jol ssl (last ++ cur) rest
    else stripStr last :: sentencesGo jol ssl cur rest

/-- Python `_sentences(spans, join_on_lowercase, short_sentence_length)`. -/
def sentences (spans : List Str) (jol : Bool) (ssl : Nat) : List Str :=
  match abbreviation_joiner spans with
  | [] => []
  | c :: rest => sentencesGo jol ssl c rest

/-- Python `split_single(text, join_on_lowercase, short_sentence_length)`:
split at sentence terminals and at (single) newline characters, then
re-split every sentence at any remaining newline. -/
def split_single (text : Str) (jol : Bool) (ssl : Nat) : List Str :=
  (sentences (splitSeps (segRE 1) text) jol ssl).flatMap (splitOnChar '\n')

/-- Python `split_multi(text, join_on_lowercase, short_sentence_length)`:
sentences may contain single newline characters; two or more consecutive
newlines always split. -/
def split_multi (text : Str) (jol : Bool) (ssl : Nat) : List Str :=
  sentences (splitSeps (segRE 2) text) jol ssl

/-! ## tokenizer.py: possessive markers and contractions -/

/-- Continuation of the word-shape language `{alnum}+(?:{hyphen}{alnum}+)*`
after an alphanumeric character has been read. -/
def wordTail : Str → Bool
  | [] => true
  | [c] => isAlnumU c
  | c :: d :: r2 =>
    if isAlnumU c then wordTail (d :: r2)
    else if isHyphenChar c then isAlnumU d && wordTail r2
    else false

/-- The language `{alnum}+(?:{hyphen}{alnum}+)*`: a non-empty alphanumeric
run, possibly with single word-internal hyphens. -/
def wordShape : Str → Bool
  | [] => false
  | c :: rest => isAlnumU c && wordTail rest

/-- The `IS_POSSESSIVE` pattern
`{alnum}+(?:{hyphen}{alnum}+)*(?:{apo}[sS]|[sS]{apo})$` (anchored both
ways by `match` and `$`): the string decomposes as a word shape followed
by a two-character possessive marker. -/
def isPossessive (t : Str) : Bool :=
  match t.reverse with
  | a :: b :: rest =>
    (((a = 's' || a = 'S') && isApostrophe b) ||
     (isApostrophe a && (b = 's' || b = 'S'))) && wordShape rest.reverse
  | _ => false

/-- The `IS_CONTRACTION` pattern
`{alnum}+(?:{hyphen}{alnum}+)*{apo}(?:d|ll|m|re|s|t|ve)$`: a word shape,
an apostrophe-like mark, then one of the seven contraction suffixes. -/
def isContraction (t : Str) : Bool :=
  match t.reverse with
  | c :: a :: w =>
    if c = 'd' || c = 'm' || c = 's' || c = 't' then
      isApostrophe a && wordShape w.reverse
    else if c = 'l' then
      (a = 'l') &&
        (match w with
         | a2 :: w2 => isApostrophe a2 && wordShape w2.reverse
         | [] => false)
    else if c = 'e' then
      (a = 'r' || a = 'v') &&
        (match w with
         | a2 :: w2 => isApostrophe a2 && wordShape w2.reverse
         | [] => false)
    else false
  | _ => false

/-- Per-token action of `split_possessive_markers`: a matching token is
replaced by its stem and the two-character marker `token[-2:]` (or the
lone apostrophe `token[-1:]`), any other token is kept. -/
def expandPoss (t : Str) : List Str :=
  if isPossessive t then
    match t.reverse with
    | a :: b :: _ =>
      if (a = 's' || a = 'S') && isApostrophe b then
        [t.take (t.length - 2), [b, a]]
      else if (b = 's' || b = 'S') && isApostrophe a then
        [t.take (t.length - 1), [a]]
      else [t]
    | _ => [t]
  else [t]

/-- Python `split_possessive_markers(tokens)`.  The source iterates over a
snapshot of the list while inserting the split pieces in place at the
running index; since each original token is replaced by its own pieces in
order, that is exactly a flat map of the per-token action. -/
def split_possessive_markers (ts : List Str) : List Str :=
  ts.flatMap expandPoss

/-- Positions of apostrophe-like characters in `t`, in the descending
order in which the inner loop of `split_contractions` visits them. -/
def apoPositionsDesc (t : Str) : List Nat :=
  ((List.range t.length).filter (fun i => isApostrophe (t.getD i ' '))).reverse

/-- The `n't` adjustment of `split_contractions`: when the apostrophe is
the second-to-last character, the last character is `t` and the character
before the apostrophe is `n`, the split moves one position left. -/
def adjustPos (t : Str) (pos : Nat) : Nat :=
  if decide (2 < t.length) && decide (pos + 2 = t.length) &&
     t.getLast? == some 't' && t.getD (pos - 1) ' ' == 'n'
  then pos - 1 else pos

/-- Per-token action of `split_contractions`: for a matching token of
length above one, the inner loop splits at every apostrophe position in
descending order; inserting `token[:pos]` and overwriting with
`token[pos:]` at each step leaves the prefixes `take` of every visited
position followed by the suffix `drop` of the last (smallest) one. -/
def expandContr (t : Str) : List Str :=
  if isContraction t && decide (1 < t.length) then
    match apoPositionsDesc t with
    | [] => [t]
    | p :: rest =>
      ((p :: rest).map (fun q => t.take (adjustPos t q))) ++
        [t.drop (adjustPos t ((p :: rest).getLast?.getD p))]
  else [t]

/-- Python `split_contractions(tokens)`, as a flat map of the per-token
action for the same reason as `split_possessive_markers`. -/
def split_contractions (ts : List Str) : List Str :=
  ts.flatMap expandContr

/-- The token `fosʼ's` (with ʼ = U+02BC, a modifier-letter apostrophe):
its possessive stem `fosʼ` is itself a word shape ending in
`[sS]{apo}`, so `split_possessive_markers` splits its own output
again. -/
def lmPossTok : Str := toL "fos" ++ [Char.ofNat 0x02BC] ++ toL "'s"

/-- The token `foʼo't` (with ʼ = U+02BC): it matches `IS_CONTRACTION`
and contains two `APOSTROPHES` characters, so the inner loop of
`split_contractions` splits at both positions and duplicates the prefix
`fo`. -/
def lmContrTok : Str := toL "fo" ++ [Char.ofNat 0x02BC] ++ toL "o't"

/-! ## tokenizer.py: the tokenizers -/

/-- The `\s+` pattern of `space_tokenizer` (no capture group). -/
def spaceRE : RE := rplus (RE.cls isSpacePy)

/-- The `({alnum}+)` pattern of `symbol_tokenizer`. -/
def symbolRE : RE := rplus (RE.cls isAlnumU)

/-- The `SPACE` class of tokenizer.py, `[\p{Zs}\t]`: Unicode space
separators plus the horizontal tab. -/
def isZsOrTab (c : Char) : Bool :=
  c = '\t' || c = ' ' || c.toNat = 0xA0 || c.toNat = 0x1680 ||
  (0x2000 ≤ c.toNat && c.toNat ≤ 0x200A) || c.toNat = 0x202F ||
  c.toNat = 0x205F || c.toNat = 0x3000

/-- The `LINEBREAK` pattern `(?:\r\n|\n|\r| )`. -/
def linebreakRE : RE :=
  ralt [reStr "\r\n", RE.chr '\n', RE.chr '\r', RE.chr (Char.ofNat 0x2028)]

/-- The `HYPHENATED_LINEBREAK` pattern
`({alnum}{hyphen}){space}*?{linebreak}{space}*?({alnum})`. -/
def hyphLbRE : RE :=
  rcat [RE.cls isAlnumU, RE.cls isHyphenChar,
        RE.lazyStar (RE.cls isZsOrTab), linebreakRE,
        RE.lazyStar (RE.cls isZsOrTab), RE.cls isAlnumU]

/-- Substitution loop for `HYPHENATED_LINEBREAK.sub(r'\1\2', sentence)`.
Group 1 is the leading `{alnum}{hyphen}` (the first two characters of the
match) and group 2 the trailing `{alnum}` (its last character), so each
match is replaced by those three characters. -/
def hyphenSubGo (s : Str) : Nat → Nat → Str → Str
  | 0, pos, acc => acc.reverse ++ s.drop pos
  | fuel + 1, pos, acc =>
    match s.get? pos with
    | none => acc.reverse
    | some c =>
      match matchEnd hyphLbRE s pos with
      | some e =>
        if pos < e then
          (acc.reverse ++ slice s pos (pos + 2) ++ [s.getD (e - 1) ' ']) ++
            hyphenSubGo s fuel e []
        else hyphenSubGo s fuel (pos + 1) (c :: acc)
      | none => hyphenSubGo s fuel (pos + 1) (c :: acc)

/-- Python `HYPHENATED_LINEBREAK.sub(r'\1\2', s)`. -/
def hyphenSub (s : Str) : Str := hyphenSubGo s (s.length + 1) 0 []

/-- Superscript minus followed by a superscript digit: the `POWER`
pattern `⁻?[¹²³]`. -/
def powerRE : RE :=
  RE.seq (ropt (RE.chr (Char.ofNat 0x207B)))
    (RE.cls (fun c => c.toNat = 0xB9 || c.toNat = 0xB2 || c.toNat = 0xB3))

/-- The `SUBDIGIT` class `[₀-₉]`. -/
def isSubDigit (c : Char) : Bool :=
  0x2080 ≤ c.toNat && c.toNat ≤ 0x2089

/-- The SI magnitude prefixes `[yzafpnµmcdhkMGTPEZY]`. -/
def isSiMagnitude (c : Char) : Bool :=
  c = 'y' || c = 'z' || c = 'a' || c = 'f' || c = 'p' || c = 'n' ||
  c.toNat = 0xB5 || c = 'm' || c = 'c' || c = 'd' || c = 'h' || c = 'k' ||
  c = 'M' || c = 'G' || c = 'T' || c = 'P' || c = 'E' || c = 'Z' || c = 'Y'

/-- The word tokenizer's pattern: one capture group around a `+`-repeated
ordered alternation of: a dot after an alphanumeric unless an ellipsis
follows; a comma or (between digits) colon between alphanumerics; a
hyphen (optionally preceded by an apostrophe) between alphanumerics; a
non-repeated apostrophe; an ASCII single quote between alphanumerics or
terminally after `s`; physical-unit superscripts; chemical-formula
subscripts; or a plain alphanumeric character. -/
def wordTokRE : RE :=
  rplus (ralt
    [rcat [RE.cls isAlnumU, RE.chr '.', RE.look false (reStr "..")],
     rcat [RE.cls isAlnumU, RE.chr ',', RE.look true (RE.cls isAlnumU)],
     rcat [RE.cls isNumberU, RE.chr ':', RE.look true (RE.cls isNumberU)],
     rcat [RE.cls isAlnumU, ropt (RE.cls isApoU), RE.cls isHyphenChar,
           RE.look true (RE.cls isAlnumU)],
     rcat [RE.cls isApoU, RE.look false (RE.cls isApoU)],
     rcat [RE.cls isAlnumU, RE.chr '\'', RE.look true (RE.cls isAlnumU)],
     rcat [RE.chr 's', RE.chr '\'', RE.eol],
     rcat [RE.wordB, ropt (RE.cls isSiMagnitude), rep13 (RE.cls isLetterU),
           powerRE, RE.eol],
     rcat [RE.wordB,
           rplus (RE.alt
             (RE.seq (RE.cls (fun c => 'A' ≤ c && c ≤ 'Z'))
               (ropt (RE.cls (fun c => 'a' ≤ c && c ≤ 'z'))))
             (RE.cls (fun c => c = ')' || c = ']'))),
           rplus (RE.cls isSubDigit),
           ropt (RE.seq (ropt (RE.cls (fun c => c.toNat = 0xB2 || c.toNat = 0xB3)))
             (RE.cls (fun c => c.toNat = 0x207A || c.toNat = 0x207B)))],
     RE.cls isAlnumU])

/-- The `APO_MATCHER` pattern (a single unicode apostrophe). -/
def apoURE : RE := RE.cls isApoU

/-- Left visual border of the web tokenizer's pattern,
`[\s<"'(\[{]`. -/
def isUriBorderL (c : Char) : Bool :=
  isSpacePy c || c = '<' || c = '"' || c = '\'' || c = '(' || c = '[' ||
  c.toNat = 0x7B

/-- Right visual border of the web tokenizer's pattern,
`[\s>"')\]}]`. -/
def isUriBorderR (c : Char) : Bool :=
  isSpacePy c || c = '>' || c = '"' || c = '\'' || c = ')' || c = ']' ||
  c.toNat = 0x7D

/-- RFC3986-like URI alternative of the web tokenizer:
`[A-z]+ :// (?:[^@]+@)? (?:[\w-]+\.)+ \w+ (?::\d+)?` followed by the
optional path, query and fragment parts. -/
def uriRE : RE :=
  rcat [rplus (RE.cls (fun c => 0x41 ≤ c.toNat && c.toNat ≤ 0x7A)),
        reStr "://",
        ropt (RE.seq (rplus (RE.cls (fun c => !(c = '@')))) (RE.chr '@')),
        rplus (RE.seq (rplus (RE.cls (fun c => isWordChar c || c = '-')))
          (RE.chr '.')),
        rplus (RE.cls isWordChar),
        ropt (RE.seq (RE.chr ':') (rplus (RE.cls Char.isDigit))),
        ropt (RE.seq (RE.chr '/')
          (RE.star (RE.cls (fun c =>
            !(c = '?' || c = '#' || isSpacePy c || c = '\'' || c = '"' ||
              c = '>' || c = ')' || c = ']' || c.toNat = 0x7D))))),
        ropt (RE.seq (RE.chr '?')
          (rplus (RE.cls (fun c =>
            !(c = '#' || isSpacePy c || c = '\'' || c = '"' ||
              c = '>' || c = ')' || c = ']' || c.toNat = 0x7D))))),
        ropt (RE.seq (RE.chr '#')
          (rplus (RE.cls (fun c =>
            !(isSpacePy c || c = '\'' || c = '"' ||
              c = '>' || c = ')' || c = ']' || c.toNat = 0x7D)))))]

/-- Simplified e-mail alternative of the web tokenizer:
local part, `@`, sub-domains and TLD. -/
def emailRE : RE :=
  rcat [rplus (RE.cls (fun c =>
          isWordChar c || c = '.' || c = '#' || c = '$' || c = '%' ||
          c = '&' || c = '\'' || c = '*' || c = '+' || c = '/' ||
          c = '=' || c = '!' || c = '?' || c = '^' || c.toNat = 0x60 ||
          c.toNat = 0x7B || c = '|' || c.toNat = 0x7D || c = '~' || c = '-')),
        RE.chr '@',
        rplus (RE.seq (rplus (RE.cls (fun c => isWordChar c || c = '-')))
          (RE.chr '.')),
        rplus (RE.cls isWordChar)]

/-- The full web tokenizer pattern: a URI or e-mail (the capture group)
between zero-width visual borders; since the lookarounds are zero width,
the whole match coincides with the captured span. -/
def webRE : RE :=
  rcat [RE.lookB true (RE.alt RE.bol (RE.cls isUriBorderL)),
        RE.alt uriRE emailRE,
        RE.look true (RE.alt (RE.cls isUriBorderR) RE.eol)]

/-- Partial model of Python's `html.unescape`, covering the basic named
entities; it is the identity on strings without an ampersand, which is
the only case exercised by the theorems below. -/
def unescapeGo : Nat → Str → Str
  | 0, rest => rest
  | _fuel + 1, [] => []
  | fuel + 1, c :: rest =>
    if c = '&' then
      if (toL "amp;").isPrefixOf rest then '&' :: unescapeGo fuel (rest.drop 4)
      else if (toL "lt;").isPrefixOf rest then '<' :: unescapeGo fuel (rest.drop 3)
      else if (toL "gt;").isPrefixOf rest then '>' :: unescapeGo fuel (rest.drop 3)
      else if (toL "quot;").isPrefixOf rest then
        '"' :: unescapeGo fuel (rest.drop 5)
      else c :: unescapeGo fuel rest
    else c :: unescapeGo fuel rest

/-- HTML-entity unescaping applied by the web tokenizer outside URIs. -/
def unescapeHtml (s : Str) : Str := unescapeGo s.length s

/-- Python `space_tokenizer(sentence)`: split on `\s+` and drop empties. -/
def space_tokenizer (s : Str) : List Str :=
  (splitDrop spaceRE s).filter (fun t => !(t.isEmpty))

/-- Python `symbol_tokenizer(sentence)`: separate alphanumeric runs
inside each space token. -/
def symbol_tokenizer (s : Str) : List Str :=
  (space_tokenizer s).flatMap
    (fun sp => (splitSeps symbolRE sp).filter (fun t => !(t.isEmpty)))

/-- Condition under which the word tokenizer's sentence-terminal splice
considers a token: it is a full word-level match that is not a lone
apostrophe, or it contains a sentence terminal character. -/
def spliceCond (w : Str) : Bool :=
  (reMatch wordTokRE w && !(reMatch apoURE w)) || w.any isSentTerminal

/-- Splice of the sentence terminal at 1-based position `j` from the end
of the token list: a token of length one or a pure ellipsis is left
alone; a terminal last character is split off behind the stem; a terminal
first character is split off before the stem. -/
def spliceAt (tokens : List Str) (j : Nat) : List Str :=
  let n := tokens.length
  let w := tokens.getD (n - j) []
  if w.length - 1 = 0 || w = toL "..." then tokens
  else if (match w.getLast? with
           | some c => isSentTerminal c
           | none => false) then
    tokens.take (n - j) ++ [w.dropLast, [w.getLastD ' ']] ++
      tokens.drop (n - j + 1)
  else if (match w.head? with
           | some c => isSentTerminal c
           | none => false) then
    tokens.take (n - j) ++ [[w.headD ' '], w.drop 1] ++
      tokens.drop (n - j + 1)
  else tokens

/-- The sentence-terminal pass of `word_tokenizer`: scan the last three
tokens from the end, apply the splice to the first one satisfying the
condition, and stop. -/
def terminalSplice (tokens : List Str) : List Str :=
  let n := tokens.length
  if decide (1 ≤ n) && spliceCond (tokens.getD (n - 1) []) then
    spliceAt tokens 1
  else if decide (2 ≤ n) && spliceCond (tokens.getD (n - 2) []) then
    spliceAt tokens 2
  else if decide (3 ≤ n) && spliceCond (tokens.getD (n - 3) []) then
    spliceAt tokens 3
  else tokens

/-- Expansion of one token by the dangling-punctuation pass, working on
the reversed token: strip trailing commas, semicolons and colons one at a
time while more than one character remains, each becoming its own
token. -/
def dangleAux : Str → List Str → List Str
  | [], acc => [] :: acc
  | c :: rest, acc =>
    if (c = ',' || c = ';' || c = ':') && !(rest.isEmpty) then
      dangleAux rest ([c] :: acc)
    else ((c :: rest).reverse) :: acc

/-- Per-token dangling-punctuation expansion. -/
def expandDangling (t : Str) : List Str := dangleAux t.reverse []

/-- The dangling-punctuation pass of `word_tokenizer`.  The source
repeatedly rescans the whole list from the end until clean; since a
produced stem no longer ends in dangling punctuation (or has length one)
and the produced punctuation tokens have length one, the fixpoint of that
loop is the flat map of the per-token expansion. -/
def danglingPass (tokens : List Str) : List Str :=
  tokens.flatMap expandDangling

/-- Python `word_tokenizer(sentence)`: hyphenated-linebreak pruning,
space splitting, word-pattern splitting, then the sentence-terminal and
dangling-punctuation passes. -/
def word_tokenizer (s : Str) : List Str :=
  danglingPass (terminalSplice
    ((space_tokenizer (hyphenSub s)).flatMap
      (fun sp => (splitSeps wordTokRE sp).filter (fun t => !(t.isEmpty)))))

/-- Python `web_tokenizer(sentence)`: URI and e-mail spans (the odd
entries of the split) are passed through verbatim; all other spans are
unescaped and word-tokenized. -/
def web_tokenizer (s : Str) : List Str :=
  (splitSeps webRE s).enum.flatMap
    (fun ie => if ie.1 % 2 = 1 then [ie.2]
               else word_tokenizer (unescapeHtml ie.2))

/-! ## Claim theorems -/

/-- Claim C1, counterexample: on the empty input both segmenters return
the one-element list containing the empty sentence, not an empty
sequence as the claim states. -/
theorem c1_empty_input_counterexample :
    ¬ (split_single (toL "") false 55 = [] ∧ split_multi (toL "") false 55 = []) := by
  decide

/-- Claim C1, amended: for the empty input string `split_single` and
`split_multi` (at their default parameters) each return exactly one
sentence, the empty string, and no error is raised (both functions are
total). -/
theorem c1_empty_input_amended :
    split_single (toL "") false 55 = [[]] ∧ split_multi (toL "") false 55 = [[]] := by
  decide

/-- Claim C2, counterexample: `split_contractions` is not idempotent; on
the single-token list `["don't"]` a second application inserts an empty
stem before the `n't` token. -/
theorem c2_idempotence_counterexample :
    split_contractions (split_contractions [toL "don't"]) ≠
      split_contractions [toL "don't"] ∧
    split_contractions (split_contractions [toL "don't"]) =
      [toL "do", [], toL "n't"] := by
  constructor
  · decide
  · decide

/-- Claim C3, counterexample: applying `split_contractions` to the word
tokenizer's output for the sentence `n't` yields an empty token, and the
web tokenizer keeps the URI user-info of `a://b c@d.e` so one emitted
token contains an internal space. -/
theorem c3_token_invariant_counterexample :
    split_contractions (word_tokenizer (toL "n't")) = [[], toL "n't"] ∧
    (web_tokenizer (toL "a://b c@d.e")).any (fun t => t.any isSpacePy) = true := by
  constructor
  · decide
  · decide

/-- Claim C4, counterexample: for the input `"Foo! \nand bar"` the single
line splitter returns the sentence `"Foo! "` with trailing whitespace
(the continuation join leaves the newline inside the sentence, and the
final newline re-split is not followed by another trim). -/
theorem c4_trimmed_counterexample :
    (split_single (toL "Foo! \nand bar") false 55).any
      (fun s => decide (s ≠ stripStr s)) = true ∧
    split_single (toL "Foo! \nand bar") false 55 = [toL "Foo! ", toL "and bar"] := by
  constructor
  · decide
  · decide

/-- Claim C5, counterexample: enabling `join_on_lowercase` can increase
the number of sentences.  With `short_sentence_length = 10`, the shown
text yields two sentences with the flag off but three with the flag on
(the early lower-case join lengthens the first fragment past the
threshold, which then blocks the bracket-based joins that fired without
the flag). -/
theorem c5_monotone_counterexample :
    ¬ ((split_single (toL "Alpha bbb. cc ([dd. ) Zeta yyy. ] and x.") true 10).length ≤
       (split_single (toL "Alpha bbb. cc ([dd. ) Zeta yyy. ] and x.") false 10).length) := by
  decide

/-- Claim C5, amended: the per-pair join decision of `_sentences` is
pointwise monotone in `join_on_lowercase` — any pair of adjacent
fragments joined with the flag off is also joined with it on (the flag
only weakens the lower-case branch's condition) — but the global
sentence count is not monotone, as the counterexample shows. -/
theorem c5_monotone_amended (ssl : Nat) (last cur : Str)
    (h : sentJoin false ssl last cur = true) :
    sentJoin true ssl last cur = true := by
  unfold sentJoin at h ⊢
  cases hb : reMatch beforeLowerRE last <;>
    cases hl : reMatch lowerWordRE cur <;>
    simp_all

/-- Witness for `c5_monotone_amended` at a concrete joined pair (the
continuation word `and` joins with either flag value). -/
theorem c5_monotone_amended_witness :
    sentJoin false 55 (toL "x") (toL "and y") = true ∧
    sentJoin true 55 (toL "x") (toL "and y") = true :=
  ⟨by decide, c5_monotone_amended 55 (toL "x") (toL "and y") (by decide)⟩

/-- Unfolding of `stripStr` through Mathlib's `rdropWhile`. -/
theorem stripStr_eq_rdrop (s : Str) :
    stripStr s = List.rdropWhile isSpacePy (List.dropWhile isSpacePy s) := rfl

/-- Head of a `dropWhile` result never satisfies the dropped predicate. -/
theorem head_dropWhile_not_space (l : Str) :
    ∀ c, (l.dropWhile isSpacePy).head? = some c → isSpacePy c = false := by
  induction l with
  | nil => intro c hc; simp [List.dropWhile] at hc
  | cons a t ih =>
    intro c hc
    rw [List.dropWhile_cons] at hc
    by_cases ha : isSpacePy a
    · rw [if_pos ha] at hc
      exact ih c hc
    · rw [if_neg ha] at hc
      simp only [List.head?_cons, Option.some.injEq] at hc
      subst hc
      exact Bool.eq_false_iff.mpr ha

/-- A list whose head does not satisfy the predicate is unchanged by
`dropWhile`. -/
theorem dropWhile_eq_self_of_head (l : Str)
    (h : ∀ c, l.head? = some c → isSpacePy c = false) :
    l.dropWhile isSpacePy = l := by
  cases l with
  | nil => rfl
  | cons a t =>
    rw [List.dropWhile_cons]
    simp [h a rfl]

/-- Stripping is idempotent. -/
theorem stripStr_idem (s : Str) : stripStr (stripStr s) = stripStr s := by
  rw [stripStr_eq_rdrop, stripStr_eq_rdrop]
  have hdw : List.dropWhile isSpacePy
      (List.rdropWhile isSpacePy (List.dropWhile isSpacePy s)) =
      List.rdropWhile isSpacePy (List.dropWhile isSpacePy s) := by
    apply dropWhile_eq_self_of_head
    intro c hc
    rcases List.rdropWhile_prefix isSpacePy
      (List.dropWhile isSpacePy s) with ⟨t, ht⟩
    apply head_dropWhile_not_space s
    rw [← ht]
    cases hr : List.rdropWhile isSpacePy (List.dropWhile isSpacePy s) with
    | nil => rw [hr] at hc; simp at hc
    | cons a t' =>
      rw [hr] at hc
      simp only [List.head?_cons, Option.some.injEq] at hc
      simp [hc]
  rw [hdw, List.rdropWhile_idempotent]

/-- Every sentence emitted by the `_sentences` loop is the result of a
`strip`. -/
theorem sentencesGo_strip (jol : Bool) (ssl : Nat) :
    ∀ rest last s, s ∈ sentencesGo jol ssl last rest → ∃ x, s = stripStr x := by
  intro rest
  induction rest with
  | nil =>
    intro last s hs
    simp only [sentencesGo, List.mem_singleton] at hs
    exact ⟨last, hs⟩
  | cons cur rest ih =>
    intro last s hs
    rw [sentencesGo] at hs
    split at hs
    · exact ih _ s hs
    · rcases List.mem_cons.mp hs with h | h
      · exact ⟨last, h⟩
      · exact ih _ s h

/-- Every sentence of `sentences` is stripped. -/
theorem sentences_stripped (spans : List Str) (jol : Bool) (ssl : Nat) :
    ∀ s ∈ sentences spans jol ssl, stripStr s = s := by
  intro s hs
  unfold sentences at hs
  split at hs
  · simp at hs
  · rcases sentencesGo_strip jol ssl _ _ s hs with ⟨x, rfl⟩
    exact stripStr_idem x

/-- Pieces of `splitOnChar` never contain the separator. -/
theorem splitOnChar_not_mem (sep : Char) :
    ∀ s : Str, ∀ piece ∈ splitOnChar sep s, sep ∉ piece := by
  intro s
  induction s with
  | nil =>
    intro piece hp
    simp only [splitOnChar, List.mem_singleton] at hp
    simp [hp]
  | cons c rest ih =>
    intro piece hp
    rw [splitOnChar] at hp
    split at hp
    · rcases List.mem_cons.mp hp with h | h
      · simp [h]
      · exact ih piece h
    · rename_i hc
      rcases hrec : splitOnChar sep rest with _ | ⟨p, ps⟩
      · rw [hrec] at hp
        simp only [List.mem_singleton] at hp
        subst hp
        intro hmem
        rcases List.mem_singleton.mp hmem
        exact hc rfl
      · rw [hrec] at hp
        rcases List.mem_cons.mp hp with h | h
        · subst h
          intro hmem
          rcases List.mem_cons.mp hmem with h | h
          · exact hc h.symm
          · exact ih p (by rw [hrec]; exact List.mem_cons_self _ _) h
        · exact ih piece (by rw [hrec]; exact List.mem_cons_of_mem _ h)

/-- Claim C4, amended: every sentence returned by `split_multi` carries
no leading or trailing whitespace, and no sentence returned by
`split_single` contains an embedded newline; however `split_single`
sentences are not always trimmed (see the counterexample), because the
final newline re-split can expose whitespace that was interior before. -/
theorem c4_trimmed_amended (text : Str) (jol : Bool) (ssl : Nat) :
    (∀ s ∈ split_multi text jol ssl, stripStr s = s) ∧
    (∀ s ∈ split_single text jol ssl, '\n' ∉ s) := by
  constructor
  · intro s hs
    exact sentences_stripped _ jol ssl s hs
  · intro s hs
    unfold split_single at hs
    rcases List.mem_flatMap.mp hs with ⟨x, _, hpiece⟩
    exact splitOnChar_not_mem '\n' x s hpiece

/-- Witness for `c4_trimmed_amended` at a concrete input. -/
theorem c4_trimmed_amended_witness :
    stripStr (toL "Hello there.") = toL "Hello there." ∧
    '\n' ∉ toL "Hello there." :=
  ⟨(c4_trimmed_amended (toL "Hello there.") false 55).1 (toL "Hello there.")
     (by decide),
   (c4_trimmed_amended (toL "Hello there.") false 55).2 (toL "Hello there.")
     (by decide)⟩

/-- Specification of `findGo`: a hit is at or after the start index,
within bounds, and carries the sought character. -/
theorem findGo_spec (c : Char) :
    ∀ (l : Str) (j r : Nat), findGo c l j = some r →
      j ≤ r ∧ r < j + l.length ∧ l.get? (r - j) = some c := by
  intro l
  induction l with
  | nil => intro j r h; simp [findGo] at h
  | cons d rest ih =>
    intro j r h
    rw [findGo] at h
    by_cases hd : d = c
    · rw [if_pos hd] at h
      cases h
      refine ⟨Nat.le_refl _, by simp only [List.length_cons]; omega, ?_⟩
      rw [Nat.sub_self]
      simp [hd]
    · rw [if_neg hd] at h
      rcases ih (j + 1) r h with ⟨h1, h2, h3⟩
      refine ⟨by omega, by simp only [List.length_cons]; omega, ?_⟩
      have : r - j = (r - (j + 1)) + 1 := by omega
      rw [this, List.get?_cons_succ]
      exact h3

/-- Specification of `findFrom` (Python `find` with a start index). -/
theorem findFrom_spec (s : Str) (c : Char) (i r : Nat)
    (h : findFrom s c i = some r) :
    i ≤ r ∧ r < s.length ∧ s.get? r = some c := by
  rcases findGo_spec c (s.drop i) i r h with ⟨h1, h2, h3⟩
  rw [List.get?_drop] at h3
  have hir : i + (r - i) = r := by omega
  rw [hir] at h3
  have hlen : r < s.length := by
    have := List.get?_eq_some.mp h3
    exact this.1
  exact ⟨h1, hlen, h3⟩

/-- Specification of `rfindBefore` (Python `rfind` with a stop index). -/
theorem rfindBefore_spec (s : Str) (c : Char) (stop r : Nat)
    (h : rfindBefore s c stop = some r) :
    r < stop ∧ r < s.length ∧ s.get? r = some c := by
  unfold rfindBefore at h
  rcases hk : findGo c (s.take stop).reverse 0 with _ | k
  · rw [hk] at h; exact Option.noConfusion h
  · rw [hk] at h
    have h : (s.take stop).length - 1 - k = r := Option.some_injective _ h
    rcases findGo_spec c (s.take stop).reverse 0 k hk with ⟨_, h2, h3⟩
    rw [List.length_reverse] at h2
    have hk' : k < (s.take stop).length := by omega
    have h3' : (s.take stop).get? ((s.take stop).length - 1 - k) = some c := by
      rw [← List.get?_reverse hk']
      simpa using h3
    have hr : r = (s.take stop).length - 1 - k := by omega
    have hrlt : r < (s.take stop).length := by omega
    have hstop : (s.take stop).length ≤ stop := by
      simp [List.length_take]
    have hgets : s.get? r = some c := by
      rw [← List.get?_take (by omega : r < stop)]
      rw [hr]
      exact h3'
    have hrs : r < s.length := (List.get?_eq_some.mp hgets).1
    exact ⟨by omega, hrs, hgets⟩

/-- With two distinct bracket characters the loop of `_is_open` always
terminates with a value: the `RuntimeError` branch would force the two
distinct characters to occupy the same position, and every step moves the
offset strictly right. -/
theorem isOpenGo_ok (s : Str) (b0 b1 : Char) (hb : b0 ≠ b1) :
    ∀ (fuel offset : Nat) (nesting : Int), offset < s.length →
      s.length - offset ≤ fuel →
      ∃ v, isOpenGo s b0 b1 fuel offset nesting = .ok v := by
  intro fuel
  induction fuel with
  | zero => intro offset nesting h1 h2; omega
  | succ fuel ih =>
    intro offset nesting h1 h2
    rw [isOpenGo]
    rcases h0 : findFrom s b0 (offset + 1) with _ | opener <;>
      rcases hc : findFrom s b1 (offset + 1) with _ | closer
    · exact ⟨_, rfl⟩
    · rcases findFrom_spec s b1 (offset + 1) closer hc with ⟨hc1, hc2, _⟩
      exact ih closer _ hc2 (by omega)
    · rcases findFrom_spec s b0 (offset + 1) opener h0 with ⟨ho1, ho2, _⟩
      exact ih opener _ ho2 (by omega)
    · dsimp only
      rcases findFrom_spec s b0 (offset + 1) opener h0 with ⟨ho1, ho2, ho3⟩
      rcases findFrom_spec s b1 (offset + 1) closer hc with ⟨hc1, hc2, hc3⟩
      by_cases hoc : opener < closer
      · rw [if_pos hoc]
        exact ih opener _ ho2 (by omega)
      · rw [if_neg hoc]
        by_cases hco : closer < opener
        · rw [if_pos hco]
          exact ih closer _ hc2 (by omega)
        · exfalso
          have : opener = closer := by omega
          rw [this, hc3] at ho3
          exact hb (Option.some_injective _ ho3.symm)

/-- Same termination argument for the right-to-left loop of
`_is_not_opened`: every step moves the offset strictly left. -/
theorem isNotOpenedGo_ok (s : Str) (b0 b1 : Char) (hb : b0 ≠ b1) :
    ∀ (fuel offset : Nat) (nesting : Int), offset < fuel →
      ∃ v, isNotOpenedGo s b0 b1 fuel offset nesting = .ok v := by
  intro fuel
  induction fuel with
  | zero => intro offset nesting h1; omega
  | succ fuel ih =>
    intro offset nesting h1
    rw [isNotOpenedGo]
    rcases h0 : rfindBefore s b0 offset with _ | opener <;>
      rcases hc : rfindBefore s b1 offset with _ | closer
    · exact ⟨_, rfl⟩
    · rcases rfindBefore_spec s b1 offset closer hc with ⟨hc1, _, _⟩
      exact ih closer _ (by omega)
    · rcases rfindBefore_spec s b0 offset opener h0 with ⟨ho1, _, _⟩
      exact ih opener _ (by omega)
    · dsimp only
      rcases rfindBefore_spec s b0 offset opener h0 with ⟨ho1, _, ho3⟩
      rcases rfindBefore_spec s b1 offset closer hc with ⟨hc1, _, hc3⟩
      by_cases hco : closer < opener
      · rw [if_pos hco]
        exact ih opener _ (by omega)
      · rw [if_neg hco]
        by_cases hoc : opener < closer
        · rw [if_pos hoc]
          exact ih closer _ (by omega)
        · exfalso
          have : opener = closer := by omega
          rw [this, hc3] at ho3
          exact hb (Option.some_injective _ ho3.symm)

/-- Claim C6: for every input string, `_is_open` and `_is_not_opened`
with the bracket pairs `()` and `[]` never reach the internal
`RuntimeError` branch (nor run out of fuel): both functions always
return a Boolean value. -/
theorem c6_bracket_error_unreachable (s : Str) :
    (is_open s '(' ')').isOk = true ∧ (is_open s '[' ']').isOk = true ∧
    (is_not_opened s '(' ')').isOk = true ∧
    (is_not_opened s '[' ']').isOk = true := by
  have hopen : ∀ b0 b1 : Char, b0 ≠ b1 → (is_open s b0 b1).isOk = true := by
    intro b0 b1 hb
    unfold is_open
    rcases h0 : findFrom s b0 0 with _ | off
    · rfl
    · rcases findFrom_spec s b0 0 off h0 with ⟨_, hlt, _⟩
      rcases isOpenGo_ok s b0 b1 hb (s.length + 1) off 1 hlt (by omega) with ⟨v, hv⟩
      dsimp only
      rw [hv]
      rfl
  have hnot : ∀ b0 b1 : Char, b0 ≠ b1 → (is_not_opened s b0 b1).isOk = true := by
    intro b0 b1 hb
    unfold is_not_opened
    rcases h0 : rfindBefore s b1 s.length with _ | off
    · rfl
    · rcases rfindBefore_spec s b1 s.length off h0 with ⟨hlt, _, _⟩
      rcases isNotOpenedGo_ok s b0 b1 hb (s.length + 1) off 1 (by omega) with ⟨v, hv⟩
      dsimp only
      rw [hv]
      rfl
  exact ⟨hopen '(' ')' (by decide), hopen '[' ']' (by decide),
         hnot '(' ')' (by decide), hnot '[' ']' (by decide)⟩

/-- Characters of a word-shape continuation are alphanumeric or hyphens. -/
theorem wordTail_chars :
    ∀ (l : Str), wordTail l = true →
      ∀ c ∈ l, (isAlnumU c || isHyphenChar c) = true := by
  have H : ∀ (n : Nat) (l : Str), l.length ≤ n → wordTail l = true →
      ∀ c ∈ l, (isAlnumU c || isHyphenChar c) = true := by
    intro n
    induction n with
    | zero =>
      intro l hlen _ c hc
      rcases l with _ | ⟨a, t⟩
      · simp at hc
      · simp at hlen
    | succ n ih =>
      intro l hlen hw c hc
      rcases l with _ | ⟨a, t⟩
      · simp at hc
      · rcases t with _ | ⟨d, r2⟩
        · simp only [wordTail] at hw
          rcases List.mem_singleton.mp hc with rfl
          simp [hw]
        · simp only [wordTail] at hw
          by_cases ha : isAlnumU a
          · rw [if_pos ha] at hw
            rcases List.mem_cons.mp hc with rfl | hc'
            · simp [ha]
            · exact ih (d :: r2) (by simp at hlen ⊢; omega) hw c hc'
          · rw [if_neg ha] at hw
            by_cases hh : isHyphenChar a
            · rw [if_pos hh] at hw
              rw [Bool.and_eq_true] at hw
              rcases List.mem_cons.mp hc with rfl | hc'
              · simp [hh]
              · rcases List.mem_cons.mp hc' with rfl | hc''
                · simp [hw.1]
                · exact ih r2 (by simp at hlen; omega) hw.2 c hc''
            · rw [if_neg hh] at hw
              exact absurd hw (by simp)
  intro l
  exact H l.length l (Nat.le_refl _)

/-- Characters of a word shape are alphanumeric or hyphens. -/
theorem wordShape_chars (l : Str) (h : wordShape l = true) :
    ∀ c ∈ l, (isAlnumU c || isHyphenChar c) = true := by
  rcases l with _ | ⟨a, t⟩
  · intro c hc; simp at hc
  · rw [wordShape, Bool.and_eq_true] at h
    intro c hc
    rcases List.mem_cons.mp hc with rfl | hc'
    · simp [h.1]
    · exact wordTail_chars t h.2 c hc'

/-- A word shape is non-empty. -/
theorem wordShape_ne_nil (l : Str) (h : wordShape l = true) : l ≠ [] := by
  intro hnil
  rw [hnil] at h
  exact absurd h (by simp [wordShape])

/-- An apostrophe-like character that is alphanumeric or a hyphen must be
one of the two modifier-letter apostrophes U+02B9 or U+02BC; the other
four apostrophe-like marks are neither letters, numbers nor hyphens. -/
theorem apo_word_is_lm (c : Char) (h : isApostrophe c = true)
    (hw : (isAlnumU c || isHyphenChar c) = true) : isLmApo c = true := by
  rw [isApostrophe] at h
  simp only [Bool.or_eq_true, decide_eq_true_eq] at h
  rcases h with ((((h | h) | h) | h) | h) | h <;> subst h
  · exact absurd hw (by decide)
  · exact absurd hw (by decide)
  · decide
  · decide
  · exact absurd hw (by decide)
  · exact absurd hw (by decide)

/-- An alphanumeric-or-hyphen character that is not a modifier-letter
apostrophe is not an apostrophe at all. -/
theorem word_not_apo (c : Char) (h : (isAlnumU c || isHyphenChar c) = true)
    (hlm : isLmApo c = false) : isApostrophe c = false := by
  by_cases ha : isApostrophe c
  · rw [apo_word_is_lm c ha h] at hlm
    exact absurd hlm (by simp)
  · exact Bool.eq_false_iff.mpr ha

/-- The letters `s` and `S` are not apostrophes. -/
theorem s_not_apo (c : Char) (h : c = 's' ∨ c = 'S') :
    isApostrophe c = false := by
  rcases h with rfl | rfl <;> decide

/-- A string of alphanumeric-or-hyphen characters none of which is a
modifier-letter apostrophe never matches the possessive pattern (its
last two characters would have to include an apostrophe). -/
theorem noPoss_of_chars (l : Str)
    (h : ∀ c ∈ l, (isAlnumU c || isHyphenChar c) = true)
    (hlm : ∀ c ∈ l, isLmApo c = false) :
    isPossessive l = false := by
  rw [isPossessive]
  rcases hrev : l.reverse with _ | ⟨a, t⟩
  · rfl
  · rcases t with _ | ⟨b, rest⟩
    · rfl
    · have ha : a ∈ l := by
        rw [← List.mem_reverse, hrev]; exact List.mem_cons_self _ _
      have hb : b ∈ l := by
        rw [← List.mem_reverse, hrev]
        exact List.mem_cons_of_mem _ (List.mem_cons_self _ _)
      dsimp only
      rw [word_not_apo a (h a ha) (hlm a ha), word_not_apo b (h b hb) (hlm b hb)]
      simp

/-- No two-character string matches the possessive pattern (the word
shape before the marker would be empty). -/
theorem isPossessive_two (x y : Char) : isPossessive [x, y] = false := by
  have hrev : ([x, y] : Str).reverse = [y, x] := by simp
  rw [isPossessive, hrev]
  simp [wordShape]

/-- No one-character string matches the possessive pattern. -/
theorem isPossessive_one (x : Char) : isPossessive [x] = false := by
  have hrev : ([x] : Str).reverse = [x] := by simp
  rw [isPossessive, hrev]

/-- Structure of a possessive match: a word shape followed by the
two-character marker. -/
theorem isPossessive_decomp (t : Str) (h : isPossessive t = true) :
    ∃ a b rest, t.reverse = a :: b :: rest ∧ wordShape rest.reverse = true ∧
      t = rest.reverse ++ [b, a] ∧
      (((a = 's' ∨ a = 'S') ∧ isApostrophe b = true) ∨
       (isApostrophe a = true ∧ (b = 's' ∨ b = 'S'))) := by
  rw [isPossessive] at h
  rcases hrev : t.reverse with _ | ⟨a, t1⟩ <;> rw [hrev] at h
  · exact absurd h (by simp)
  · rcases t1 with _ | ⟨b, rest⟩
    · exact absurd h (by simp)
    · rw [Bool.and_eq_true] at h
      refine ⟨a, b, rest, rfl, h.2, ?_, ?_⟩
      · have := congrArg List.reverse hrev
        rw [List.reverse_reverse] at this
        rw [this]
        simp
      · rcases Bool.or_eq_true _ _ |>.mp h.1 with h1 | h1
        · rw [Bool.and_eq_true] at h1
          left
          exact ⟨by simpa using h1.1, h1.2⟩
        · rw [Bool.and_eq_true] at h1
          right
          exact ⟨h1.1, by simpa using h1.2⟩

/-- Full description of `expandPoss` on a matching token: a non-empty
stem of alphanumeric-or-hyphen characters and a short marker,
concatenating back to the token, with the marker too short to match the
possessive pattern again. -/
theorem expandPoss_of_poss (t : Str) (h : isPossessive t = true) :
    ∃ stem marker, expandPoss t = [stem, marker] ∧
      stem ++ marker = t ∧ stem ≠ [] ∧ marker ≠ [] ∧
      (∀ c ∈ stem, (isAlnumU c || isHyphenChar c) = true) ∧
      isPossessive marker = false ∧
      (∀ c ∈ stem, c ∈ t) ∧ (∀ c ∈ marker, c ∈ t) := by
  rcases isPossessive_decomp t h with ⟨a, b, rest, hrev, hws, ht, hcond⟩
  have hlen : t.length = rest.reverse.length + 2 := by rw [ht]; simp
  have hmem : ∀ c ∈ rest.reverse ++ [b, a], c ∈ t := by rw [← ht]; intro c hc; exact hc
  rcases hcond with ⟨has, hab⟩ | ⟨haa, hbs⟩
  · -- marker is apostrophe-then-s: token[-2:]
    have hcond1 : ((a = 's' || a = 'S') && isApostrophe b) = true := by
      rcases has with rfl | rfl <;> simp [hab]
    have hstem : t.take (t.length - 2) = rest.reverse := by
      rw [ht]
      have h1 : (rest.reverse ++ [b, a]).length - 2 = rest.reverse.length := by
        simp
      rw [h1, List.take_left]
    refine ⟨rest.reverse, [b, a], ?_, ?_, ?_, by simp, ?_, ?_, ?_, ?_⟩
    · unfold expandPoss
      rw [if_pos h, hrev]
      dsimp only
      rw [if_pos hcond1, hstem]
    · rw [← ht]
    · exact wordShape_ne_nil _ hws
    · exact wordShape_chars _ hws
    · exact isPossessive_two b a
    · intro c hc; exact hmem c (List.mem_append_left _ hc)
    · intro c hc
      rcases List.mem_cons.mp hc with rfl | hc'
      · exact hmem c (List.mem_append_right _ (List.mem_cons_self _ _))
      · rcases List.mem_cons.mp hc' with rfl | hc''
        · exact hmem c (List.mem_append_right _
            (List.mem_cons_of_mem _ (List.mem_cons_self _ _)))
        · simp at hc''
  · -- marker is the lone apostrophe: token[-1:]
    have hcond1 : ((a = 's' || a = 'S') && isApostrophe b) = false := by
      by_cases has : a = 's' ∨ a = 'S'
      · rw [s_not_apo a has] at haa
        exact absurd haa (by simp)
      · push_neg at has
        simp [has.1, has.2]
    have hcond2 : ((b = 's' || b = 'S') && isApostrophe a) = true := by
      rcases hbs with rfl | rfl <;> simp [haa]
    have hstem : t.take (t.length - 1) = rest.reverse ++ [b] := by
      rw [ht]
      have h1 : (rest.reverse ++ [b, a]).length - 1 = rest.reverse.length + 1 := by
        simp
      rw [h1, List.take_append_eq_append_take,
          List.take_of_length_le (Nat.le_succ _)]
      have h2 : rest.reverse.length + 1 - rest.reverse.length = 1 := by omega
      rw [h2]
      rfl
    refine ⟨rest.reverse ++ [b], [a], ?_, ?_, by simp, by simp, ?_, ?_, ?_, ?_⟩
    · unfold expandPoss
      rw [if_pos h, hrev]
      dsimp only
      rw [if_neg (by simp [hcond1]), if_pos hcond2, hstem]
    · rw [ht]; simp
    · intro c hc
      rcases List.mem_append.mp hc with hc' | hc'
      · exact wordShape_chars _ hws c hc'
      · rcases List.mem_singleton.mp hc' with rfl
        rcases hbs with rfl | rfl <;> decide
    · exact isPossessive_one a
    · intro c hc
      rcases List.mem_append.mp hc with hc' | hc'
      · exact hmem c (List.mem_append_left _ hc')
      · rcases List.mem_singleton.mp hc' with rfl
        exact hmem c (List.mem_append_right _ (List.mem_cons_self _ _))
    · intro c hc
      rcases List.mem_singleton.mp hc with rfl
      exact hmem c (List.mem_append_right _
        (List.mem_cons_of_mem _ (List.mem_cons_self _ _)))

/-- A token that does not match the possessive pattern is kept. -/
theorem expandPoss_not (t : Str) (h : isPossessive t = false) :
    expandPoss t = [t] := by
  unfold expandPoss
  rw [if_neg (by simp [h])]

/-- On a token free of modifier-letter apostrophes, every piece produced
by `expandPoss` is left unchanged by a second application (the stem is
then apostrophe-free and the marker is too short to match). -/
theorem expandPoss_stable (t : Str) (hlm : ∀ c ∈ t, isLmApo c = false) :
    ∀ u ∈ expandPoss t, expandPoss u = [u] := by
  by_cases h : isPossessive t
  · rcases expandPoss_of_poss t h with
      ⟨stem, marker, heq, _, _, _, hchars, hpm, hsub, _⟩
    rw [heq]
    intro u hu
    rcases List.mem_cons.mp hu with rfl | hu'
    · exact expandPoss_not _
        (noPoss_of_chars _ hchars (fun c hc => hlm c (hsub c hc)))
    · rcases List.mem_singleton.mp hu' with rfl
      exact expandPoss_not _ hpm
  · intro u hu
    rw [expandPoss_not t (Bool.eq_false_iff.mpr h)] at hu
    rcases List.mem_singleton.mp hu with rfl
    exact expandPoss_not _ (Bool.eq_false_iff.mpr h)

/-- A flat map whose function keeps every member pointwise is the
identity. -/
theorem flatMap_singleton_id {α : Type} (f : α → List α) :
    ∀ l : List α, (∀ u ∈ l, f u = [u]) → l.flatMap f = l := by
  intro l
  induction l with
  | nil => intro _; rfl
  | cons x xs ih =>
    intro h
    rw [List.flatMap_cons, h x (List.mem_cons_self _ _),
        ih (fun u hu => h u (List.mem_cons_of_mem _ hu))]
    rfl

/-- Claim C2, amended: `split_possessive_markers` is idempotent on token
lists free of the modifier-letter apostrophes U+02B9/U+02BC, but not in
general: the token `fosʼ's` (with ʼ = U+02BC, a character that is both
alphanumeric and an apostrophe) is split into `fosʼ` and `'s`, and the
stem `fosʼ` matches the possessive pattern again.  `split_contractions`
is not idempotent even on ASCII (see the counterexample). -/
theorem c2_idempotence_amended :
    (∀ ts : List Str, (∀ t ∈ ts, ∀ c ∈ t, isLmApo c = false) →
      split_possessive_markers (split_possessive_markers ts) =
        split_possessive_markers ts) ∧
    split_possessive_markers (split_possessive_markers [lmPossTok]) ≠
      split_possessive_markers [lmPossTok] := by
  constructor
  · intro ts
    induction ts with
    | nil => intro _; rfl
    | cons t rest ih =>
      intro hts
      have ih' := ih (fun u hu => hts u (List.mem_cons_of_mem _ hu))
      unfold split_possessive_markers at ih' ⊢
      rw [List.flatMap_cons, List.flatMap_append, ih']
      congr 1
      exact flatMap_singleton_id expandPoss (expandPoss t)
        (expandPoss_stable t (hts t (List.mem_cons_self _ _)))
  · decide

/-- Witness for `c2_idempotence_amended`: the idempotence conjunct at the
concrete token list `["Fred's"]`. -/
theorem c2_idempotence_amended_witness :
    split_possessive_markers (split_possessive_markers [toL "Fred's"]) =
      split_possessive_markers [toL "Fred's"] :=
  c2_idempotence_amended.1 [toL "Fred's"] (by decide)

/-- Structure of a contraction match: a word shape, an apostrophe-like
mark and a suffix of apostrophe-free letters. -/
theorem isContraction_decomp (t : Str) (h : isContraction t = true) :
    ∃ w a sfx, t = w ++ a :: sfx ∧ wordShape w = true ∧
      isApostrophe a = true ∧ (∀ c ∈ sfx, isApostrophe c = false) := by
  unfold isContraction at h
  rcases hrev : t.reverse with _ | ⟨c, rest⟩ <;> rw [hrev] at h
  · exact absurd h (by simp)
  · rcases rest with _ | ⟨a, w⟩
    · exact absurd h (by simp)
    · have ht : t = (c :: a :: w).reverse := by
        have := congrArg List.reverse hrev
        rwa [List.reverse_reverse] at this
      dsimp only at h
      by_cases h1 : (c = 'd' || c = 'm' || c = 's' || c = 't') = true
      · rw [if_pos h1, Bool.and_eq_true] at h
        refine ⟨w.reverse, a, [c], ?_, h.2, h.1, ?_⟩
        · rw [ht]; simp
        · intro x hx
          rcases List.mem_singleton.mp hx with rfl
          simp only [Bool.or_eq_true, decide_eq_true_eq] at h1
          rcases h1 with ((rfl | rfl) | rfl) | rfl <;> decide
      · rw [if_neg h1] at h
        by_cases h2 : c = 'l'
        · rw [if_pos h2] at h
          rw [Bool.and_eq_true] at h
          rcases w with _ | ⟨a2, w2⟩
          · exact absurd h.2 (by simp)
          · have h3 := h.2
            dsimp only at h3
            rw [Bool.and_eq_true] at h3
            refine ⟨w2.reverse, a2, ['l', c], ?_, h3.2, h3.1, ?_⟩
            · have ha : a = 'l' := by simpa using h.1
              rw [ht, ha, h2]; simp
            · intro x hx
              subst h2
              rcases List.mem_cons.mp hx with rfl | hx'
              · decide
              · rcases List.mem_singleton.mp hx' with rfl; decide
        · rw [if_neg h2] at h
          by_cases h3 : c = 'e'
          · rw [if_pos h3] at h
            rw [Bool.and_eq_true] at h
            rcases w with _ | ⟨a2, w2⟩
            · exact absurd h.2 (by simp)
            · have h4 := h.2
              dsimp only at h4
              rw [Bool.and_eq_true] at h4
              refine ⟨w2.reverse, a2, [a, c], ?_, h4.2, h4.1, ?_⟩
              · rw [ht]; simp
              · intro x hx
                subst h3
                rcases List.mem_cons.mp hx with rfl | hx'
                · have := h.1
                  simp only [Bool.or_eq_true, decide_eq_true_eq] at this
                  rcases this with rfl | rfl <;> decide
                · rcases List.mem_singleton.mp hx' with rfl; decide
          · rw [if_neg h3] at h
            exact absurd h (by simp)

/-- A filter over `range n` that accepts exactly one index is that
singleton. -/
theorem filter_range_eq_single (p : Nat → Bool) :
    ∀ (n j : Nat), j < n → p j = true →
      (∀ i, i < n → i ≠ j → p i = false) →
      (List.range n).filter p = [j] := by
  intro n
  induction n with
  | zero => intro j hj _ _; omega
  | succ n ih =>
    intro j hj hpj hother
    rw [List.range_succ, List.filter_append]
    by_cases hjn : j = n
    · have h1 : (List.range n).filter p = [] := by
        rw [List.filter_eq_nil]
        intro i hi
        rw [List.mem_range] at hi
        simp [hother i (by omega) (by omega)]
      rw [h1, List.nil_append]
      have hpn : p n = true := hjn ▸ hpj
      have h2 : List.filter p [n] = [n] := by simp [hpn]
      rw [h2, ← hjn]
    · have hj' : j < n := by omega
      rw [ih j hj' hpj (fun i h1 h2 => hother i (by omega) h2)]
      have hn : p n = false := hother n (by omega) (by omega)
      simp [hn]

/-- In a decomposed contraction token the apostrophe position is unique:
it is the length of the word-shape prefix. -/
theorem apoPositions_singleton (w : Str) (a : Char) (sfx : Str)
    (hw : ∀ c ∈ w, isApostrophe c = false) (ha : isApostrophe a = true)
    (hs : ∀ c ∈ sfx, isApostrophe c = false) :
    apoPositionsDesc (w ++ a :: sfx) = [w.length] := by
  unfold apoPositionsDesc
  have hfil : (List.range (w ++ a :: sfx).length).filter
      (fun i => isApostrophe ((w ++ a :: sfx).getD i ' ')) = [w.length] := by
    apply filter_range_eq_single
    · simp only [List.length_append, List.length_cons]; omega
    · have : (w ++ a :: sfx).getD w.length ' ' = a := by
        unfold List.getD
        rw [List.get?_append_right (Nat.le_refl _), Nat.sub_self]
        rfl
      rw [this]
      exact ha
    · intro i hi hne
      rw [List.length_append, List.length_cons] at hi
      by_cases hlt : i < w.length
      · have : (w ++ a :: sfx).getD i ' ' ∈ w := by
          unfold List.getD
          rw [List.get?_append hlt]
          rcases hg : w.get? i with _ | x
          · exact absurd hg (by
              rw [List.get?_eq_none] at hg ⊢
              omega)
          · exact List.get?_mem hg
        exact hw _ this
      · have hgt : w.length < i := by omega
        have : (w ++ a :: sfx).getD i ' ' ∈ sfx := by
          unfold List.getD
          rw [List.get?_append_right (by omega)]
          have h1 : i - w.length = (i - w.length - 1) + 1 := by omega
          rw [h1, List.get?_cons_succ]
          rcases hg : sfx.get? (i - w.length - 1) with _ | x
          · exact absurd hg (by
              rw [List.get?_eq_none] at hg ⊢
              omega)
          · exact List.get?_mem hg
        exact hs _ this
  rw [hfil]
  rfl

/-- On a matching token free of modifier-letter apostrophes,
`expandContr` produces exactly a prefix and the complementary suffix of
the token: the word-shape prefix is then apostrophe-free, so the token
contains exactly one apostrophe position. -/
theorem expandContr_of_contr (t : Str) (h : isContraction t = true)
    (hlm : ∀ c ∈ t, isLmApo c = false) :
    ∃ j, expandContr t = [t.take j, t.drop j] := by
  rcases isContraction_decomp t h with ⟨w, a, sfx, ht, hws, ha, hsfx⟩
  have hwapo : ∀ c ∈ w, isApostrophe c = false := by
    intro c hc
    have hmem : c ∈ t := by rw [ht]; exact List.mem_append_left _ hc
    exact word_not_apo c (wordShape_chars w hws c hc) (hlm c hmem)
  have hsing : apoPositionsDesc t = [w.length] := by
    rw [ht]
    exact apoPositions_singleton w a sfx hwapo ha hsfx
  have hlen : 1 < t.length := by
    rw [ht]
    have := wordShape_ne_nil w hws
    rcases w with _ | ⟨x, xs⟩
    · exact absurd rfl this
    · simp only [List.length_append, List.length_cons]; omega
  refine ⟨adjustPos t w.length, ?_⟩
  unfold expandContr
  rw [if_pos (by simp [h, hlen]), hsing]
  simp

/-- Flattening a flat map whose function preserves the characters of
each member of the list preserves the whole flattening. -/
theorem flatten_flatMap_eq (f : Str → List Str) :
    ∀ ts : List Str, (∀ t ∈ ts, (f t).flatten = t) →
      (ts.flatMap f).flatten = ts.flatten := by
  intro ts
  induction ts with
  | nil => intro _; rfl
  | cons t rest ih =>
    intro hf
    rw [List.flatMap_cons, List.flatten_append,
        ih (fun u hu => hf u (List.mem_cons_of_mem _ hu)),
        List.flatten_cons, hf t (List.mem_cons_self _ _)]

/-- Per-token character preservation for `expandPoss`. -/
theorem expandPoss_flatten (t : Str) : (expandPoss t).flatten = t := by
  by_cases h : isPossessive t
  · rcases expandPoss_of_poss t h with ⟨stem, marker, heq, hcat, _, _, _, _, _, _⟩
    rw [heq]
    simpa using hcat
  · rw [expandPoss_not t (Bool.eq_false_iff.mpr h)]
    simp

/-- Per-token character preservation for `expandContr` on a token free
of modifier-letter apostrophes. -/
theorem expandContr_flatten (t : Str) (hlm : ∀ c ∈ t, isLmApo c = false) :
    (expandContr t).flatten = t := by
  by_cases h : isContraction t
  · rcases expandContr_of_contr t h hlm with ⟨j, heq⟩
    rw [heq]
    simp [List.take_append_drop]
  · unfold expandContr
    rw [if_neg (by simp [h])]
    simp

/-- Claim C10, counterexample to the original: on the token `foʼo't`
(with ʼ = U+02BC, a modifier-letter apostrophe, hence simultaneously a
word character and an `APOSTROPHES` member) `IS_CONTRACTION` matches and
the inner loop of `split_contractions` splits at both apostrophe
positions, so the concatenation of the output duplicates the prefix
`fo`. -/
theorem c10_concat_counterexample :
    (split_contractions [lmContrTok]).flatten ≠
      ([lmContrTok] : List Str).flatten := by
  decide

/-- Claim C10, amended: `split_possessive_markers` preserves the
concatenation of every token list (it replaces a matching token by a
stem and marker that concatenate back to it), and `split_contractions`
preserves the concatenation of token lists free of the modifier-letter
apostrophes U+02B9/U+02BC (a matching token then contains exactly one
apostrophe, so the loop splits exactly once into two adjacent pieces). -/
theorem c10_concat_amended :
    (∀ ts : List Str,
      (split_possessive_markers ts).flatten = ts.flatten) ∧
    (∀ ts : List Str, (∀ t ∈ ts, ∀ c ∈ t, isLmApo c = false) →
      (split_contractions ts).flatten = ts.flatten) := by
  constructor
  · intro ts
    exact flatten_flatMap_eq expandPoss ts (fun t _ => expandPoss_flatten t)
  · intro ts hts
    exact flatten_flatMap_eq expandContr ts
      (fun t ht => expandContr_flatten t (hts t ht))

/-- Witness for `c10_concat_amended`: the contraction conjunct at the
concrete token list `["don't"]`. -/
theorem c10_concat_amended_witness :
    (split_contractions [toL "don't"]).flatten =
      ([toL "don't"] : List Str).flatten :=
  c10_concat_amended.2 [toL "don't"] (by decide)

/-- Case analysis for `Option.orElse` results. -/
theorem orElse_eq_some (x : Option Nat) (f : Unit → Option Nat) (r : Nat)
    (h : x.orElse f = some r) : x = some r ∨ (x = none ∧ f () = some r) := by
  rcases x with _ | v
  · right; exact ⟨rfl, h⟩
  · left; exact h

/-- The matcher never moves backwards: a successful continuation was
called at or after the start position. -/
theorem matchCore_mono
    (self : RE → Str → Nat → (Nat → Option Nat) → Option Nat)
    (hself : ∀ re s pos k r, self re s pos k = some r →
      ∃ e, pos ≤ e ∧ k e = some r) :
    ∀ re s pos k r, matchCore self re s pos k = some r →
      ∃ e, pos ≤ e ∧ k e = some r := by
  intro re
  induction re with
  | eps =>
    intro s pos k r h
    exact ⟨pos, Nat.le_refl _, h⟩
  | cls p =>
    intro s pos k r h
    simp only [matchCore] at h
    rcases hg : s.get? pos with _ | c <;> rw [hg] at h
    · exact absurd h (by simp)
    · dsimp only at h
      by_cases hp : p c
      · rw [if_pos hp] at h
        exact ⟨pos + 1, Nat.le_succ _, h⟩
      · rw [if_neg hp] at h
        exact absurd h (by simp)
  | seq a b iha ihb =>
    intro s pos k r h
    simp only [matchCore] at h
    rcases iha s pos _ r h with ⟨e, he, hb⟩
    rcases ihb s e k r hb with ⟨e', he', hk⟩
    exact ⟨e', Nat.le_trans he he', hk⟩
  | alt a b iha ihb =>
    intro s pos k r h
    simp only [matchCore] at h
    rcases orElse_eq_some _ _ _ h with h1 | ⟨_, h1⟩
    · exact iha s pos k r h1
    · exact ihb s pos k r h1
  | star r ihr =>
    intro s pos k r0 h
    simp only [matchCore] at h
    rcases orElse_eq_some _ _ _ h with h1 | ⟨_, h1⟩
    · rcases ihr s pos _ r0 h1 with ⟨e, he, hcont⟩
      by_cases hlt : pos < e
      · rw [if_pos hlt] at hcont
        rcases hself _ s e k r0 hcont with ⟨e', he', hk⟩
        exact ⟨e', by omega, hk⟩
      · rw [if_neg hlt] at hcont
        exact absurd hcont (by simp)
    · exact ⟨pos, Nat.le_refl _, h1⟩
  | lazyStar r ihr =>
    intro s pos k r0 h
    simp only [matchCore] at h
    rcases orElse_eq_some _ _ _ h with h1 | ⟨_, h1⟩
    · exact ⟨pos, Nat.le_refl _, h1⟩
    · rcases ihr s pos _ r0 h1 with ⟨e, he, hcont⟩
      by_cases hlt : pos < e
      · rw [if_pos hlt] at hcont
        rcases hself _ s e k r0 hcont with ⟨e', he', hk⟩
        exact ⟨e', by omega, hk⟩
      · rw [if_neg hlt] at hcont
        exact absurd hcont (by simp)
  | look positive r ihr =>
    intro s pos k r0 h
    simp only [matchCore] at h
    split at h
    · exact ⟨pos, Nat.le_refl _, h⟩
    · exact absurd h (by simp)
  | lookB positive r ihr =>
    intro s pos k r0 h
    simp only [matchCore] at h
    split at h
    · exact ⟨pos, Nat.le_refl _, h⟩
    · exact absurd h (by simp)
  | bol =>
    intro s pos k r h
    simp only [matchCore] at h
    split at h
    · exact ⟨pos, Nat.le_refl _, h⟩
    · exact absurd h (by simp)
  | eol =>
    intro s pos k r h
    simp only [matchCore] at h
    split at h
    · exact ⟨pos, Nat.le_refl _, h⟩
    · exact absurd h (by simp)
  | wordB =>
    intro s pos k r h
    simp only [matchCore] at h
    split at h
    · exact ⟨pos, Nat.le_refl _, h⟩
    · exact absurd h (by simp)

/-- Monotonicity of the fuel-bounded matcher. -/
theorem matchF_mono :
    ∀ (fuel : Nat) (re : RE) (s : Str) (pos : Nat) (k : Nat → Option Nat)
      (r : Nat), matchF fuel re s pos k = some r →
      ∃ e, pos ≤ e ∧ k e = some r := by
  intro fuel
  induction fuel with
  | zero =>
    intro re s pos k r h
    exact absurd h (by simp [matchF])
  | succ fuel ih =>
    intro re s pos k r h
    rw [matchF] at h
    exact matchCore_mono (matchF fuel) ih re s pos k r h

/-- Unfolding of the matcher at a successor fuel value. -/
theorem matchF_succ (n : Nat) (re : RE) (s : Str) (pos : Nat)
    (k : Nat → Option Nat) :
    matchF (n + 1) re s pos k = matchCore (matchF n) re s pos k := rfl

/-- An `orElse` whose fallback is `some` is always defined. -/
theorem orElse_some_isSome (x : Option Nat) (q : Nat) :
    (x.orElse (fun _ => some q)).isSome = true := by
  rcases x with _ | v <;> rfl

/-- Stepping the matcher through a leading character class that accepts
the character at the current position. -/
theorem matchCore_seq_cls_pos
    (self : RE → Str → Nat → (Nat → Option Nat) → Option Nat)
    (p : Char → Bool) (b : RE) (s : Str) (pos : Nat) (k : Nat → Option Nat)
    (c : Char) (hg : s.get? pos = some c) (hp : p c = true) :
    matchCore self (RE.seq (RE.cls p) b) s pos k =
      matchCore self b s (pos + 1) k := by
  simp only [matchCore]
  rw [hg]
  dsimp only
  rw [if_pos hp]

/-- Stepping the matcher through a leading character class that rejects
the current position (or end of string). -/
theorem matchCore_seq_cls_neg
    (self : RE → Str → Nat → (Nat → Option Nat) → Option Nat)
    (p : Char → Bool) (b : RE) (s : Str) (pos : Nat) (k : Nat → Option Nat)
    (h : ∀ c, s.get? pos = some c → p c = false) :
    matchCore self (RE.seq (RE.cls p) b) s pos k = none := by
  simp only [matchCore]
  rcases hg : s.get? pos with _ | c
  · rfl
  · dsimp only
    rw [if_neg (by simp [h c hg])]

/-- Characterization of the `\s+` matcher at a position: it succeeds
exactly on whitespace characters. -/
theorem matchEnd_space_isSome (s : Str) (pos : Nat) (c : Char)
    (hg : s.get? pos = some c) :
    (matchEnd spaceRE s pos).isSome = isSpacePy c := by
  unfold matchEnd spaceRE rplus
  rw [show s.length + 8 = (s.length + 7) + 1 from rfl, matchF_succ]
  by_cases hc : isSpacePy c
  · rw [matchCore_seq_cls_pos _ _ _ _ _ _ c hg hc, hc]
    simp only [matchCore]
    exact orElse_some_isSome _ _
  · rw [matchCore_seq_cls_neg _ _ _ _ _ _ (by
      intro d hd
      rw [hg] at hd
      rcases Option.some_injective _ hd.symm with rfl
      exact Bool.eq_false_iff.mpr hc)]
    rw [Bool.eq_false_iff.mpr hc]
    rfl

/-- A successful `\s+` match consumes at least one character. -/
theorem matchEnd_space_gt (s : Str) (pos e : Nat)
    (h : matchEnd spaceRE s pos = some e) : pos < e := by
  unfold matchEnd spaceRE rplus at h
  rw [show s.length + 8 = (s.length + 7) + 1 from rfl, matchF_succ] at h
  rcases hg : s.get? pos with _ | c
  · rw [matchCore_seq_cls_neg _ _ _ _ _ _ (by
      intro d hd
      rw [hg] at hd
      exact absurd hd (by simp))] at h
    exact absurd h (by simp)
  · by_cases hc : isSpacePy c
    · rw [matchCore_seq_cls_pos _ _ _ _ _ _ c hg hc] at h
      rcases matchCore_mono (matchF (s.length + 7)) (matchF_mono _) _ s
        (pos + 1) some e h with ⟨e', he', hk⟩
      have he : e' = e := Option.some_injective _ hk
      omega
    · rw [matchCore_seq_cls_neg _ _ _ _ _ _ (by
        intro d hd
        rw [hg] at hd
        rcases Option.some_injective _ hd.symm with rfl
        exact Bool.eq_false_iff.mpr hc)] at h
      exact absurd h (by simp)

/-- Pieces of the whitespace split contain no whitespace: every
character that enters a piece sits at a position where the `\s+` matcher
failed. -/
theorem splitDropGo_space_clean (s : Str) :
    ∀ (fuel pos : Nat) (acc : Str), s.length - pos < fuel →
      (∀ c ∈ acc, isSpacePy c = false) →
      ∀ piece ∈ splitDropGo spaceRE s fuel pos acc,
        ∀ c ∈ piece, isSpacePy c = false := by
  intro fuel
  induction fuel with
  | zero => intro pos acc hfuel _ _ _ _ _; omega
  | succ fuel ih =>
    intro pos acc hfuel hacc piece hp c hc
    rw [splitDropGo] at hp
    rcases hg : s.get? pos with _ | d <;> rw [hg] at hp <;> dsimp only at hp
    · rcases List.mem_singleton.mp hp with rfl
      exact hacc c (List.mem_reverse.mp hc)
    · have hpos : pos < s.length := (List.get?_eq_some.mp hg).1
      rcases hm : matchEnd spaceRE s pos with _ | e <;> rw [hm] at hp <;>
        dsimp only at hp
      · have hd : isSpacePy d = false := by
          have := matchEnd_space_isSome s pos d hg
          rw [hm] at this
          exact this.symm
        refine ih (pos + 1) (d :: acc) (by omega) ?_ piece hp c hc
        intro x hx
        rcases List.mem_cons.mp hx with rfl | hx'
        · exact hd
        · exact hacc x hx'
      · have he : pos < e := matchEnd_space_gt s pos e hm
        rw [if_pos he] at hp
        rcases List.mem_cons.mp hp with rfl | hp'
        · exact hacc c (List.mem_reverse.mp hc)
        · exact ih e [] (by omega) (by simp) piece hp' c hc

/-- The space tokenizer produces only non-empty whitespace-free tokens. -/
theorem space_tokenizer_good (s : Str) :
    ∀ t ∈ space_tokenizer s, t ≠ [] ∧ ∀ c ∈ t, isSpacePy c = false := by
  intro t ht
  unfold space_tokenizer splitDrop at ht
  rw [List.mem_filter] at ht
  refine ⟨by simpa using ht.2, ?_⟩
  exact splitDropGo_space_clean s (s.length + 1) 0 [] (by omega) (by simp)
    t ht.1

/-- Generic character containment for the capture-group split: every
character of every output (piece or separator) comes from the input or
the accumulator. -/
theorem splitSepsGo_chars (re : RE) (s : Str) (p : Char → Bool)
    (hs : ∀ c ∈ s, p c = true) :
    ∀ (fuel pos : Nat) (acc : Str), (∀ c ∈ acc, p c = true) →
      ∀ piece ∈ splitSepsGo re s fuel pos acc, ∀ c ∈ piece, p c = true := by
  intro fuel
  induction fuel with
  | zero =>
    intro pos acc hacc piece hp c hc
    rw [splitSepsGo] at hp
    rcases List.mem_singleton.mp hp with rfl
    rcases List.mem_append.mp hc with hc' | hc'
    · exact hacc c (List.mem_reverse.mp hc')
    · exact hs c (List.drop_subset _ _ hc')
  | succ fuel ih =>
    intro pos acc hacc piece hp c hc
    rw [splitSepsGo] at hp
    rcases hg : s.get? pos with _ | d <;> rw [hg] at hp <;> dsimp only at hp
    · rcases List.mem_singleton.mp hp with rfl
      exact hacc c (List.mem_reverse.mp hc)
    · have hd : d ∈ s := List.get?_mem hg
      rcases hm : matchEnd re s pos with _ | e <;> rw [hm] at hp <;>
        dsimp only at hp
      · refine ih (pos + 1) (d :: acc) ?_ piece hp c hc
        intro x hx
        rcases List.mem_cons.mp hx with rfl | hx'
        · exact hs x hd
        · exact hacc x hx'
      · by_cases he : pos < e
        · rw [if_pos he] at hp
          rcases List.mem_cons.mp hp with rfl | hp'
          · exact hacc c (List.mem_reverse.mp hc)
          · rcases List.mem_cons.mp hp' with rfl | hp''
            · exact hs c (List.drop_subset _ _ (List.take_subset _ _ hc))
            · exact ih e [] (by simp) piece hp'' c hc
        · rw [if_neg he] at hp
          refine ih (pos + 1) (d :: acc) ?_ piece hp c hc
          intro x hx
          rcases List.mem_cons.mp hx with rfl | hx'
          · exact hs x hd
          · exact hacc x hx'

/-- Members of `getD` within bounds belong to the list. -/
theorem getD_mem_of_ne_nil (l : List Str) (i : Nat)
    (h : l.getD i [] ≠ []) : l.getD i [] ∈ l := by
  unfold List.getD
  rcases hg : l.get? i with _ | x
  · exfalso
    apply h
    unfold List.getD
    rw [hg]
    rfl
  · exact List.get?_mem hg

/-- The default-valued last element of a non-empty list is a member. -/
theorem getLastD_mem' (l : Str) (h : l ≠ []) (d : Char) : l.getLastD d ∈ l := by
  rw [List.getLastD_eq_getLast?, List.getLast?_eq_getLast l h]
  exact List.getLast_mem h

/-- The default-valued head of a non-empty list is a member. -/
theorem headD_mem' (l : Str) (h : l ≠ []) (d : Char) : l.headD d ∈ l := by
  rcases l with _ | ⟨x, xs⟩
  · exact absurd rfl h
  · exact List.mem_cons_self _ _

/-- Invariant preservation of the sentence-terminal splice at one
position: non-emptiness and whitespace-freeness of all tokens. -/
theorem spliceAt_good (tokens : List Str) (j : Nat)
    (h : ∀ t ∈ tokens, t ≠ [] ∧ ∀ c ∈ t, isSpacePy c = false) :
    ∀ t ∈ spliceAt tokens j, t ≠ [] ∧ ∀ c ∈ t, isSpacePy c = false := by
  intro t ht
  unfold spliceAt at ht
  dsimp only at ht
  split at ht
  · exact h t ht
  · rename_i hlen
    have hw2 : 2 ≤ (tokens.getD (tokens.length - j) []).length := by
      rcases Nat.lt_or_ge (tokens.getD (tokens.length - j) []).length 2 with h2 | h2
      · exfalso
        apply hlen
        simp only [Bool.or_eq_true, decide_eq_true_eq]
        left
        omega
      · exact h2
    have hwmem : tokens.getD (tokens.length - j) [] ∈ tokens :=
      getD_mem_of_ne_nil _ _ (by
        intro hnil
        rw [hnil] at hw2
        simp at hw2)
    have hwgood := h _ hwmem
    split at ht
    · rcases List.mem_append.mp ht with ht' | ht'
      · rcases List.mem_append.mp ht' with ht'' | ht''
        · exact h t (List.take_subset _ _ ht'')
        · rcases List.mem_cons.mp ht'' with rfl | ht3
          · constructor
            · intro hnil
              have h0 := congrArg List.length hnil
              rw [List.length_dropLast, List.length_nil] at h0
              omega
            · intro c hc
              exact hwgood.2 c (List.dropLast_subset _ hc)
          · rcases List.mem_singleton.mp ht3 with rfl
            refine ⟨by simp, ?_⟩
            intro c hc
            rcases List.mem_singleton.mp hc with rfl
            exact hwgood.2 _ (getLastD_mem' _ hwgood.1 _)
      · exact h t (List.drop_subset _ _ ht')
    · split at ht
      · rcases List.mem_append.mp ht with ht' | ht'
        · rcases List.mem_append.mp ht' with ht'' | ht''
          · exact h t (List.take_subset _ _ ht'')
          · rcases List.mem_cons.mp ht'' with rfl | ht3
            · refine ⟨by simp, ?_⟩
              intro c hc
              rcases List.mem_singleton.mp hc with rfl
              exact hwgood.2 _ (headD_mem' _ hwgood.1 _)
            · rcases List.mem_singleton.mp ht3 with rfl
              constructor
              · intro hnil
                have h0 := congrArg List.length hnil
                rw [List.length_drop, List.length_nil] at h0
                omega
              · intro c hc
                exact hwgood.2 c (List.drop_subset _ _ hc)
        · exact h t (List.drop_subset _ _ ht')
      · exact h t ht

/-- Invariant preservation of the full sentence-terminal pass. -/
theorem terminalSplice_good (tokens : List Str)
    (h : ∀ t ∈ tokens, t ≠ [] ∧ ∀ c ∈ t, isSpacePy c = false) :
    ∀ t ∈ terminalSplice tokens, t ≠ [] ∧ ∀ c ∈ t, isSpacePy c = false := by
  intro t ht
  unfold terminalSplice at ht
  dsimp only at ht
  split at ht
  · exact spliceAt_good tokens 1 h t ht
  · split at ht
    · exact spliceAt_good tokens 2 h t ht
    · split at ht
      · exact spliceAt_good tokens 3 h t ht
      · exact h t ht

/-- Invariant preservation of the dangling-punctuation expansion of one
reversed token. -/
theorem dangleAux_good :
    ∀ (r : Str) (acc : List Str), r ≠ [] →
      (∀ c ∈ r, isSpacePy c = false) →
      (∀ u ∈ acc, u ≠ [] ∧ ∀ c ∈ u, isSpacePy c = false) →
      ∀ u ∈ dangleAux r acc, u ≠ [] ∧ ∀ c ∈ u, isSpacePy c = false := by
  intro r
  induction r with
  | nil => intro acc hne _ _ _ _; exact absurd rfl hne
  | cons c rest ih =>
    intro acc _ hchar hacc u hu
    rw [dangleAux] at hu
    split at hu
    · rename_i hcond
      rw [Bool.and_eq_true] at hcond
      refine ih ([c] :: acc) (by simpa using hcond.2) ?_ ?_ u hu
      · intro x hx
        exact hchar x (List.mem_cons_of_mem _ hx)
      · intro v hv
        rcases List.mem_cons.mp hv with rfl | hv'
        · refine ⟨by simp, ?_⟩
          intro x hx
          rcases List.mem_singleton.mp hx with rfl
          exact hchar x (List.mem_cons_self _ _)
        · exact hacc v hv'
    · rcases List.mem_cons.mp hu with rfl | hu'
      · refine ⟨by simp, ?_⟩
        intro x hx
        exact hchar x (List.mem_reverse.mp hx)
      · exact hacc u hu'

/-- Invariant preservation of the dangling-punctuation pass. -/
theorem danglingPass_good (tokens : List Str)
    (h : ∀ t ∈ tokens, t ≠ [] ∧ ∀ c ∈ t, isSpacePy c = false) :
    ∀ t ∈ danglingPass tokens, t ≠ [] ∧ ∀ c ∈ t, isSpacePy c = false := by
  intro t ht
  unfold danglingPass at ht
  rcases List.mem_flatMap.mp ht with ⟨u, hu, htu⟩
  rcases h u hu with ⟨hune, huchar⟩
  unfold expandDangling at htu
  refine dangleAux_good u.reverse [] (by simpa using hune) ?_ (by simp) t htu
  intro c hc
  exact huchar c (List.mem_reverse.mp hc)

/-- Tokens obtained by word-pattern splitting of space tokens are
non-empty and whitespace free. -/
theorem wordSplit_tokens_good (s : Str) :
    ∀ t ∈ (space_tokenizer (hyphenSub s)).flatMap
        (fun sp => (splitSeps wordTokRE sp).filter (fun u => !(u.isEmpty))),
      t ≠ [] ∧ ∀ c ∈ t, isSpacePy c = false := by
  intro t ht
  rcases List.mem_flatMap.mp ht with ⟨sp, hsp, htsp⟩
  rw [List.mem_filter] at htsp
  rcases space_tokenizer_good (hyphenSub s) sp hsp with ⟨_, hspchar⟩
  refine ⟨by simpa using htsp.2, ?_⟩
  intro c hc
  have := splitSepsGo_chars wordTokRE sp (fun c => !(isSpacePy c))
    (by intro x hx; simpa using hspchar x hx)
    (sp.length + 1) 0 [] (by simp) t htsp.1 c hc
  simpa using this

/-- Claim C3, amended: every token of the space, symbol and word
tokenizers is a non-empty string without whitespace, and
`split_possessive_markers` preserves that invariant; the original claim
fails for `web_tokenizer` (URI user-info may contain spaces) and for
`split_contractions` (which can emit an empty token), as the
counterexample shows. -/
theorem c3_token_invariant_amended :
    (∀ s : Str, ∀ t ∈ space_tokenizer s,
      t ≠ [] ∧ ∀ c ∈ t, isSpacePy c = false) ∧
    (∀ s : Str, ∀ t ∈ symbol_tokenizer s,
      t ≠ [] ∧ ∀ c ∈ t, isSpacePy c = false) ∧
    (∀ s : Str, ∀ t ∈ word_tokenizer s,
      t ≠ [] ∧ ∀ c ∈ t, isSpacePy c = false) ∧
    (∀ ts : List Str, (∀ t ∈ ts, t ≠ [] ∧ ∀ c ∈ t, isSpacePy c = false) →
      ∀ t ∈ split_possessive_markers ts,
        t ≠ [] ∧ ∀ c ∈ t, isSpacePy c = false) := by
  refine ⟨space_tokenizer_good, ?_, ?_, ?_⟩
  · intro s t ht
    unfold symbol_tokenizer at ht
    rcases List.mem_flatMap.mp ht with ⟨sp, hsp, htsp⟩
    rw [List.mem_filter] at htsp
    rcases space_tokenizer_good s sp hsp with ⟨_, hspchar⟩
    refine ⟨by simpa using htsp.2, ?_⟩
    intro c hc
    have := splitSepsGo_chars symbolRE sp (fun c => !(isSpacePy c))
      (by intro x hx; simpa using hspchar x hx)
      (sp.length + 1) 0 [] (by simp) t htsp.1 c hc
    simpa using this
  · intro s t ht
    unfold word_tokenizer at ht
    exact danglingPass_good _
      (terminalSplice_good _ (wordSplit_tokens_good s)) t ht
  · intro ts hts t ht
    unfold split_possessive_markers at ht
    rcases List.mem_flatMap.mp ht with ⟨u, hu, htu⟩
    rcases hts u hu with ⟨hune, huchar⟩
    by_cases hp : isPossessive u
    · rcases expandPoss_of_poss u hp with
        ⟨stem, marker, heq, _, hsne, hmne, _, _, hstem, hmark⟩
      rw [heq] at htu
      rcases List.mem_cons.mp htu with rfl | htu'
      · exact ⟨hsne, fun c hc => huchar c (hstem c hc)⟩
      · rcases List.mem_singleton.mp htu' with rfl
        exact ⟨hmne, fun c hc => huchar c (hmark c hc)⟩
    · rw [expandPoss_not u (Bool.eq_false_iff.mpr hp)] at htu
      rcases List.mem_singleton.mp htu with rfl
      exact ⟨hune, huchar⟩

/-- Witness for `c3_token_invariant_amended`: the possessive-preservation
conjunct applied to a concrete token list. -/
theorem c3_token_invariant_amended_witness : toL "Fred" ≠ [] :=
  (c3_token_invariant_amended.2.2.2 [toL "Fred's"] (by decide)
    (toL "Fred") (by decide)).1

/-- Claim C7: known abbreviations suppress sentence splits;
`split_single` returns exactly one sentence for `"This is Mr. Smith."`
and for `"He lived in the U.S. last year."` (no split after `U.S.`). -/
theorem c7_abbreviation_no_split :
    split_single (toL "This is Mr. Smith.") false 55 = [toL "This is Mr. Smith."] ∧
    split_single (toL "He lived in the U.S. last year.") false 55 =
      [toL "He lived in the U.S. last year."] := by
  constructor
  · decide
  · decide

/-- Claim C8: a genuine sentence boundary is split;
`split_single "One sentence. Another sentence."` returns exactly the two
sentences in order. -/
theorem c8_real_split :
    split_single (toL "One sentence. Another sentence.") false 55 =
      [toL "One sentence.", toL "Another sentence."] := by
  decide

/-- Claim C9: the web tokenizer preserves URIs as single tokens:
`web_tokenizer "visit http://example.com/path now"` returns exactly
`["visit", "http://example.com/path", "now"]` with the URL unsplit and
not unescaped. -/
theorem c9_url_preserved :
    web_tokenizer (toL "visit http://example.com/path now") =
      [toL "visit", toL "http://example.com/path", toL "now"] := by
  decide

end Segtok
